import Mathlib

/-!
# fbender: the DHCPv4 option-code flag value

A shallow embedding of `cmd/dhcpv4/flags.go` together with the parts of the Go
standard library it calls (`encoding/csv`, `strconv.ParseUint`, `strings.Join`,
`fmt`), followed by theorems about the embedded code.

Conventions of the embedding.

* A Go `string` / `[]byte` is a list of bytes; a byte is a natural number
  (every theorem holds for all lists, so no bound below 256 has to be carried).
* A Go `error` result is an `Option`: `none` is `nil`.
* A method with a pointer receiver that mutates its receiver takes the state and
  returns the new state next to its Go result.
* `for` loops are recursive functions.  The two loops of `csv.Reader.readRecord`
  whose progress depends on the reader are driven by a fuel argument; running out
  of fuel is reported by the distinguished value `ReadErr.fuelExhausted`, and
  `Reader.Read_fuel_adequate` shows that it is never produced.
-/

namespace Fbender

/-! ## Strings -/

/-- A Go string: an immutable sequence of bytes. -/
abbrev GoString := List Nat

/-- The bytes of a string literal (Go source text is UTF-8). -/
def bytes (s : String) : GoString := s.toUTF8.data.toList.map UInt8.toNat

/-- Go `bytes.IndexByte(b, c)`: index of the first `c` in `b`; `none` stands for `-1`. -/
def indexByte : GoString → Nat → Option Nat
  | [], _ => none
  | b :: bs, c => if b = c then some 0 else (indexByte bs c).map (· + 1)

/-- Go `strings.Join(elems, sep)`. -/
def Join : List GoString → GoString → GoString
  | [], _ => []
  | [e], _ => e
  | e :: es, sep => e ++ es.foldr (fun s acc => sep ++ s ++ acc) []

/-- Decimal rendering of an unsigned integer, as `fmt` prints it for the verb `%d`
(and as `strconv.Itoa` does): most significant digit first, no leading zeros, `0`
for zero. -/
def formatDecimal (n : Nat) : GoString := (Nat.toDigits 10 n).map Char.toNat

/-! ## strconv.ParseUint -/

/-- The sentinel errors `strconv.ErrSyntax` and `strconv.ErrRange`. -/
inductive NumErrKind
  | ErrSyntax
  | ErrRange
deriving DecidableEq

/-- Go `strconv.NumError`: the failing function, the input and the reason. -/
structure NumError where
  Func : GoString
  Num : GoString
  Err : NumErrKind
deriving DecidableEq

/-- Go `strconv.syntaxError`. -/
def syntaxError (fn str : GoString) : NumError := ⟨fn, str, .ErrSyntax⟩

/-- Go `strconv.rangeError`. -/
def rangeError (fn str : GoString) : NumError := ⟨fn, str, .ErrRange⟩

/-- Go `strconv.lower`: `c | ('x' - 'X')`. -/
def lower (c : Nat) : Nat := c ||| 32

/-- The name `strconv.ParseUint` puts into its errors. -/
def fnParseUint : GoString := bytes "ParseUint"

/-- The digit loop of `strconv.ParseUint` for a base in `2..36` (so `base0` is false
and the underscore case is dead).  `n` is the `uint64` accumulator. -/
def ParseUint.loop (s0 : GoString) (base cutoff maxVal : Nat) :
    GoString → Nat → Nat × Option NumError
  | [], n => (n, none)
  | c :: cs, n =>
    let digit : Option Nat :=
      if 48 ≤ c ∧ c ≤ 57 then some (c - 48)
      else if 97 ≤ lower c ∧ lower c ≤ 122 then some (lower c - 97 + 10)
      else none
    match digit with
    | none => (0, some (syntaxError fnParseUint s0))
    | some d =>
      if d ≥ base then (0, some (syntaxError fnParseUint s0))
      else if n ≥ cutoff then (maxVal, some (rangeError fnParseUint s0))
      else
        let n10 := n * base % 2 ^ 64
        let n1 := (n10 + d) % 2 ^ 64
        if n1 < n10 ∨ n1 > maxVal then (maxVal, some (rangeError fnParseUint s0))
        else ParseUint.loop s0 base cutoff maxVal cs n1

/-- Go `strconv.ParseUint(s, 10, 8)`, the only call made by `Set`: the result value
and the error. -/
def ParseUint (s : GoString) : Nat × Option NumError :=
  if s = [] then (0, some (syntaxError fnParseUint s))
  else
    let base := 10
    let bitSize := 8
    let cutoff := (2 ^ 64 - 1) / 10 + 1
    let maxVal := 2 ^ bitSize - 1
    ParseUint.loop s base cutoff maxVal s 0

/-! ## encoding/csv -/

/-- What `csv.Reader.Read` can return as its error on a `strings.Reader` with the
default settings: `io.EOF`, or a `*csv.ParseError` wrapping `csv.ErrBareQuote` or
`csv.ErrQuote` (line and column are not modelled).  `fuelExhausted` is not a Go
error: it marks a run of the embedding that ran out of fuel. -/
inductive ReadErr
  | EOF
  | ErrBareQuote
  | ErrQuote
  | fuelExhausted
deriving DecidableEq

/-- Go `csv.lengthNL`: 1 if the line ends in a line feed, else 0. -/
def lengthNL (b : GoString) : Nat := if b.getLast? = some 10 then 1 else 0

/-- Go `bufio.Reader.ReadSlice(10)` on a reader holding `input`, with the
buffer-full retries of `csv.Reader.readLine` folded in: the bytes up to and
including the first line feed, the error (`io.EOF` when no line feed was found,
else `nil`), and what is left in the reader. -/
def readSlice : GoString → GoString × Option ReadErr × GoString
  | [] => ([], some .EOF, [])
  | c :: cs =>
    if c = 10 then ([c], none, cs)
    else
      let r := readSlice cs
      (c :: r.1, r.2.1, r.2.2)

/-- Go `csv.Reader.readLine`: the next line (a trailing carriage return before the
end of input dropped, a final CR LF turned into LF), the error, and what is left
in the reader. -/
def readLine (input : GoString) : GoString × Option ReadErr × GoString :=
  let r := readSlice input
  let line := r.1
  let err := r.2.1
  let readSize := line.length
  let p : GoString × Option ReadErr :=
    if readSize > 0 ∧ err = some .EOF then
      -- For backwards compatibility, drop trailing CR before EOF.
      (if line.getLast? = some 13 then line.dropLast else line, none)
    else (line, err)
  let line := p.1
  let n := line.length
  -- Normalize CR LF to LF on all input lines.
  let line :=
    if n ≥ 2 ∧ line.get? (n - 2) = some 13 ∧ line.get? (n - 1) = some 10 then
      line.take (n - 2) ++ [10]
    else line
  (line, p.2, r.2.2)

/-- The state of `readRecord` when it leaves the `parseField` loop: the fields
completed so far (`fieldIndexes` cutting `recordBuffer`), `err` and `errRead`. -/
structure ParseOut where
  fields : List GoString
  err : Option ReadErr
  errRead : Option ReadErr
deriving DecidableEq

mutual

/-- The `parseField` loop of `csv.Reader.readRecord` with `TrimLeadingSpace` and
`LazyQuotes` off and `Comma` the comma (44), at the head of the loop: `line` is the
unparsed rest of the current line, `rest` what is left in the reader, `fields` the
completed fields. -/
def parseField : Nat → GoString → Option ReadErr → GoString → List GoString → ParseOut
  | 0, _, errRead, _, fields => ⟨fields, some .fuelExhausted, errRead⟩
  | fuel + 1, line, errRead, rest, fields =>
    if line.length = 0 ∨ line.head? ≠ some 34 then
      -- Non-quoted string field
      let i := indexByte line 44
      let field :=
        match i with
        | some i => line.take i
        | none => line.take (line.length - lengthNL line)
      if (indexByte field 34).isSome then
        ⟨fields, some .ErrBareQuote, errRead⟩
      else
        match i with
        | some i => parseField fuel (line.drop (i + 1)) errRead rest (fields ++ [field])
        | none => ⟨fields ++ [field], none, errRead⟩
    else
      -- Quoted string field
      parseQuoted fuel (line.drop 1) errRead rest fields []

/-- The inner loop of `readRecord` that reads a quoted field; `cur` holds the bytes
appended to `recordBuffer` since the last field was completed. -/
def parseQuoted : Nat → GoString → Option ReadErr → GoString → List GoString → GoString →
    ParseOut
  | 0, _, errRead, _, fields, _ => ⟨fields, some .fuelExhausted, errRead⟩
  | fuel + 1, line, errRead, rest, fields, cur =>
    match indexByte line 34 with
    | some i =>
      -- Hit next quote.
      let cur := cur ++ line.take i
      let line := line.drop (i + 1)
      if line.head? = some 34 then
        -- a doubled quote: append one quote
        parseQuoted fuel (line.drop 1) errRead rest fields (cur ++ [34])
      else if line.head? = some 44 then
        -- quote then comma: end of field
        parseField fuel (line.drop 1) errRead rest (fields ++ [cur])
      else if lengthNL line = line.length then
        -- quote then end of line
        ⟨fields ++ [cur], none, errRead⟩
      else
        -- invalid non-escaped quote
        ⟨fields, some .ErrQuote, errRead⟩
    | none =>
      if line.length > 0 then
        -- Hit end of line (copy all data so far).
        let cur := cur ++ line
        if errRead ≠ none then ⟨fields, none, errRead⟩
        else
          let r := readLine rest
          let errRead := if r.2.1 = some .EOF then none else r.2.1
          parseQuoted fuel r.1 errRead r.2.2 fields cur
      else
        -- Abrupt end of file.
        if errRead = none then ⟨fields, some .ErrQuote, errRead⟩
        else ⟨fields ++ [cur], none, errRead⟩

end

/-- The loop at the top of `readRecord` that reads a line, skipping empty lines (no
comment character is set): the line, `errRead`, and what is left in the reader. -/
def skipEmptyLines : Nat → GoString → GoString × Option ReadErr × GoString
  | 0, input => ([], some .fuelExhausted, input)
  | fuel + 1, input =>
    let r := readLine input
    if r.2.1 = none ∧ r.1.length = lengthNL r.1 then skipEmptyLines fuel r.2.2
    else r

/-- Go `csv.Reader.readRecord` on a fresh reader over `input`, with the given fuel
for each of its loops: the record and the error. -/
def readRecord (fuel : Nat) (input : GoString) : List GoString × Option ReadErr :=
  let r := skipEmptyLines fuel input
  let line := r.1
  let errRead := r.2.1
  if errRead = some .EOF then ([], errRead)
  else if errRead = some .fuelExhausted then ([], errRead)
  else
    let out := parseField fuel line errRead r.2.2 []
    let err := if out.err = none then out.errRead else out.err
    -- FieldsPerRecord is 0 on a fresh reader: any number of fields is accepted.
    (out.fields, err)

/-- Go `csv.NewReader(strings.NewReader(input)).Read()`: the first record of
`input`.  The fuel, one more than the number of input bytes, is never used up
(`Reader.Read_fuel_adequate`). -/
def Reader.Read (input : GoString) : List GoString × Option ReadErr :=
  readRecord (input.length + 1) input

/-! ## cmd/dhcpv4/flags.go -/

/-- A Go `error` value as the functions of `flags.go` return it. -/
inductive GoError
  | csv (e : ReadErr)
  | num (e : NumError)
  | errorf (msg : GoString)
deriving DecidableEq

/-- The struct `optionCodeSliceValue`: the slice behind the pointer `value` (an
option code is a byte) and the flag `changed`. -/
structure optionCodeSliceValue where
  value : List Nat
  changed : Bool
deriving DecidableEq

/-- Go `NewOptionCodeSliceValue`. -/
def NewOptionCodeSliceValue : optionCodeSliceValue := ⟨[], false⟩

/-- Go `readAsCSV`. -/
def readAsCSV (val : GoString) : List GoString × Option ReadErr :=
  if val = [] then ([], none)
  else Reader.Read val

/-- The `for _, v := range values` loop of `Set`: the codes collected and the error
of the first token that `ParseUint` rejects.  The conversion
`dhcpv4.OptionCode(optcode)` of a `uint64` to a byte is the remainder modulo 256. -/
def Set.loop : List GoString → List Nat → List Nat × Option GoError
  | [], optcodes => (optcodes, none)
  | v :: vs, optcodes =>
    match ParseUint v with
    | (_, some err) => (optcodes, some (.num err))
    | (optcode, none) => Set.loop vs (optcodes ++ [optcode % 256])

/-- Go `(*optionCodeSliceValue).Set`: the receiver after the call and the error. -/
def optionCodeSliceValue.Set (s : optionCodeSliceValue) (value : GoString) :
    optionCodeSliceValue × Option GoError :=
  match readAsCSV value with
  | (_, some err) => (s, some (.csv err))
  | (values, none) =>
    match Set.loop values [] with
    | (_, some err) => (s, some err)
    | (optcodes, none) =>
      if !s.changed then (⟨optcodes, true⟩, none)
      else (⟨s.value ++ optcodes, true⟩, none)

/-- Go `(*optionCodeSliceValue).Type`. -/
def optionCodeSliceValue.Type_ (_s : optionCodeSliceValue) : GoString := bytes "optionCodeSlice"

/-- The `for i, o := range *s.value` loop of `String`, writing `out[i]`.  `table` is
the map `dhcpv4.OptionCodeToString` of the DHCP library, as its lookup function. -/
def String.loop (table : Nat → Option GoString) : List Nat → Nat → List GoString → List GoString
  | [], _, out => out
  | o :: os, i, out =>
    match table o with
    | some name => String.loop table os (i + 1) (out.set i name)
    | none =>
      String.loop table os (i + 1) (out.set i (bytes "Unknown(" ++ formatDecimal o ++ bytes ")"))

/-- Go `(*optionCodeSliceValue).String`. -/
def optionCodeSliceValue.String (table : Nat → Option GoString) (s : optionCodeSliceValue) :
    GoString :=
  let out := List.replicate s.value.length []
  let out := String.loop table s.value 0 out
  bytes "[" ++ Join out (bytes ",") ++ bytes "]"

/-- A non-nil `pflag.Value`: either a `*optionCodeSliceValue`, or a value of any other
dynamic type, of which only the result of its `Type()` method matters here. -/
inductive Value
  | optionCodeSlice (s : optionCodeSliceValue)
  | other (typeName : GoString)
deriving DecidableEq

/-- Go `pflag.Flag`, reduced to the two fields used here. -/
structure Flag where
  Name : GoString
  Value : Value
deriving DecidableEq

/-- Go `pflag.FlagSet`, reduced to its map `formal` from flag name to flag (as the
lookup function of the map). -/
structure FlagSet where
  formal : GoString → Option Flag

/-- Go `(*pflag.FlagSet).Lookup` with the default (identity) name normalisation; `none`
is the `nil` flag. -/
def FlagSet.Lookup (f : FlagSet) (name : GoString) : Option Flag := f.formal name

/-- Go `GetOptionCodesValue`; the `nil` slice is the empty list. -/
def GetOptionCodesValue (v : Value) : List Nat × Option GoError :=
  match v with
  | .optionCodeSlice optcodes => (optcodes.value, none)
  | .other typeName =>
    ([], some (.errorf (bytes "trying to get option codes value of flag of type " ++ typeName)))

/-- Go `GetOptionCodes`. -/
def GetOptionCodes (f : FlagSet) (name : GoString) : List Nat × Option GoError :=
  match f.Lookup name with
  | none => ([], some (.errorf (bytes "flag " ++ name ++ bytes " accessed but not defined")))
  | some flag => GetOptionCodesValue flag.Value

/-! ## Vocabulary of the specification -/

/-- The pieces of a string split at every comma (44): one more piece than commas. -/
def splitComma : GoString → List GoString
  | [] => [[]]
  | c :: cs =>
    if c = 44 then [] :: splitComma cs
    else
      match splitComma cs with
      | [] => [[c]]
      | p :: ps => (c :: p) :: ps

/-- An ASCII decimal digit. -/
def isDigit (c : Nat) : Prop := 48 ≤ c ∧ c ≤ 57

instance (c : Nat) : Decidable (isDigit c) := by unfold isDigit; infer_instance

/-- The base-10 value of a string of digits, read left to right starting from `acc`. -/
def decimalValueFrom (acc : Nat) (s : GoString) : Nat :=
  s.foldl (fun a c => 10 * a + (c - 48)) acc

/-- The base-10 value of a string of digits. -/
def decimalValue (s : GoString) : Nat := decimalValueFrom 0 s

/-- A token that the specification accepts: a non-empty string of ASCII digits whose
decimal value is at most 255. -/
def validToken (p : GoString) : Prop := p ≠ [] ∧ (∀ c ∈ p, isDigit c) ∧ decimalValue p ≤ 255

instance (p : GoString) : Decidable (validToken p) := by unfold validToken; infer_instance

/-- A raw string with no double quote (34), carriage return (13) or line feed (10). -/
def plain (raw : GoString) : Prop := 34 ∉ raw ∧ 13 ∉ raw ∧ 10 ∉ raw

instance (raw : GoString) : Decidable (plain raw) := by unfold plain; infer_instance

/-- How the specification renders one option code: its name when the table has one,
else `Unknown(` followed by the decimal rendering of the code and `)`. -/
def render (table : Nat → Option GoString) (c : Nat) : GoString :=
  match table c with
  | some name => name
  | none => bytes "Unknown(" ++ formatDecimal c ++ bytes ")"

/-- A name table that names the code 1 `A` and nothing else. -/
def tableA (c : Nat) : Option GoString := if c = 1 then some (bytes "A") else none

/-- A flag set with a flag `options` holding an option-code value with the codes
`[1, 2]`, a flag `count` of another type, and nothing else. -/
def sampleFlagSet : FlagSet :=
  ⟨fun name =>
    if name = bytes "options" then
      some ⟨bytes "options", .optionCodeSlice ⟨[1, 2], true⟩⟩
    else if name = bytes "count" then some ⟨bytes "count", .other (bytes "int")⟩
    else none⟩

/-- Every double quote (34) of the string is one of two adjacent double quotes, read
from the left: inside a quoted CSV field such a string holds escaped quotes only and
nothing that closes the field. -/
def quotesPaired : GoString → Bool
  | [] => true
  | [c] => decide (c ≠ 34)
  | c :: d :: r => if c = 34 then (decide (d = 34) && quotesPaired r) else quotesPaired (d :: r)

/-- The codes that the specification reads from a raw string: the tokens of its CSV
tokenization, in order, each read in base 10. -/
def parsedCodes (raw : GoString) : List Nat := (readAsCSV raw).1.map decimalValue

/-- The codes of a raw string without double quote, carriage return or line feed, by
the rule of the flag's usage `code1,code2,...`: none for the empty string, else the
base-10 reading of each piece between the commas, in order. -/
def plainCodes (raw : GoString) : List Nat :=
  if raw = [] then [] else (splitComma raw).map decimalValue

/-- Where a left-to-right reading of a CSV record stands: at the start of a field,
inside an unquoted field that already holds a byte, inside a quoted field, or right
after a double quote met inside a quoted field. -/
inductive ScanMode
  | fieldStart
  | inUnquoted
  | inQuoted
  | afterQuote
deriving DecidableEq

/-- The record that starts here has a bare double quote inside an unquoted field: read
from the given position, the bytes run through complete fields, each unquoted without
double quote or quoted with every inner double quote doubled and each followed by a
comma, up to a double quote that stands in an unquoted field after at least one other
byte.  A line feed outside a quoted field ends the record, and so does a closing
double quote that no comma follows. -/
def reachesBareQuote : ScanMode → GoString → Bool
  | _, [] => false
  | .fieldStart, c :: r =>
    if c = 34 then reachesBareQuote .inQuoted r
    else if c = 44 then reachesBareQuote .fieldStart r
    else if c = 10 then false
    else reachesBareQuote .inUnquoted r
  | .inUnquoted, c :: r =>
    if c = 34 then true
    else if c = 44 then reachesBareQuote .fieldStart r
    else if c = 10 then false
    else reachesBareQuote .inUnquoted r
  | .inQuoted, c :: r =>
    if c = 34 then reachesBareQuote .afterQuote r else reachesBareQuote .inQuoted r
  | .afterQuote, c :: r =>
    if c = 34 then reachesBareQuote .inQuoted r
    else if c = 44 then reachesBareQuote .fieldStart r
    else false

/-- The state after calling `Set` with each of the raw strings in turn, whatever each
call returns. -/
def setAll (s : optionCodeSliceValue) : List GoString → optionCodeSliceValue
  | [] => s
  | r :: rs => setAll (s.Set r).1 rs

/-- Every one of the successive `Set` calls returns a `nil` error. -/
def allSucceed (s : optionCodeSliceValue) : List GoString → Prop
  | [] => True
  | r :: rs => (s.Set r).2 = none ∧ allSucceed (s.Set r).1 rs

/-- A state that `Set` calls can produce from the value made by
`NewOptionCodeSliceValue`. -/
inductive Reachable : optionCodeSliceValue → Prop
  | new : Reachable NewOptionCodeSliceValue
  | set (s : optionCodeSliceValue) (raw : GoString) : Reachable s → Reachable (s.Set raw).1

/-- At least one of the successive `Set` calls returns a `nil` error. -/
def someSucceeds (s : optionCodeSliceValue) : List GoString → Prop
  | [] => False
  | r :: rs => (s.Set r).2 = none ∨ someSucceeds (s.Set r).1 rs

/-- A method call on an `optionCodeSliceValue`: `Set` with its argument, `String`,
`Type`, or `GetOptionCodesValue` applied to the value. -/
inductive Call
  | Set (raw : GoString)
  | String
  | Type_
  | Get
deriving DecidableEq

/-- What a call returns: the error of `Set`, the text of `String` or `Type`, or the
codes and the error of `GetOptionCodesValue`. -/
inductive CallResult
  | error (e : Option GoError)
  | text (t : GoString)
  | codes (cs : List Nat) (e : Option GoError)
deriving DecidableEq

/-- The calls that only read the value. -/
def Call.isRead : Call → Bool
  | .Set _ => false
  | _ => true

/-- One call on the value: the receiver after the call and the result.  `Set` is the
only method of `flags.go` that assigns to the fields of its receiver; `String`, `Type`
and `GetOptionCodesValue` only read them, so they hand the receiver back as it was. -/
def call (table : Nat → Option GoString) (s : optionCodeSliceValue) :
    Call → optionCodeSliceValue × CallResult
  | .Set raw => ((s.Set raw).1, .error (s.Set raw).2)
  | .String => (s, .text (s.String table))
  | .Type_ => (s, .text s.Type_)
  | .Get =>
    (s, .codes (GetOptionCodesValue (.optionCodeSlice s)).1
      (GetOptionCodesValue (.optionCodeSlice s)).2)

/-- The receiver after a sequence of calls. -/
def runCalls (table : Nat → Option GoString) (s : optionCodeSliceValue) :
    List Call → optionCodeSliceValue
  | [] => s
  | c :: cs => runCalls table (call table s c).1 cs

/-- A string made of blank lines only: each line is a line feed, or a carriage return
and a line feed. -/
def blankLines : GoString → Bool
  | [] => true
  | [c] => decide (c = 10)
  | c :: d :: r => if c = 10 then blankLines (d :: r) else (decide (c = 13 ∧ d = 10) && blankLines r)

/-! ## Lemmas: reading lines -/

theorem readSlice_length (l : GoString) :
    (readSlice l).1.length + (readSlice l).2.2.length = l.length := by
  induction l with
  | nil => simp [readSlice]
  | cons c cs ih =>
    by_cases h : c = 10
    · simp [readSlice, h]; omega
    · simp [readSlice, h]; omega

theorem readSlice_err (l : GoString) :
    (readSlice l).2.1 = none ∨ (readSlice l).2.1 = some .EOF := by
  induction l with
  | nil => simp [readSlice]
  | cons c cs ih =>
    by_cases h : c = 10
    · simp [readSlice, h]
    · simpa [readSlice, h] using ih

theorem readSlice_ne_nil (l : GoString) (h : l ≠ []) : (readSlice l).1 ≠ [] := by
  cases l with
  | nil => exact absurd rfl h
  | cons c cs =>
    by_cases h10 : c = 10
    · simp [readSlice, h10]
    · simp [readSlice, h10]

theorem readSlice_plain (l : GoString) (h : 10 ∉ l) : readSlice l = (l, some .EOF, []) := by
  induction l with
  | nil => rfl
  | cons c cs ih =>
    have hc : c ≠ 10 := fun e => h (by simp [e])
    have hcs : 10 ∉ cs := fun e => h (List.mem_cons_of_mem _ e)
    simp [readSlice, hc, ih hcs]

theorem readLine_rest (l : GoString) : (readLine l).2.2 = (readSlice l).2.2 := rfl

theorem readLine_length_le (l : GoString) :
    (readLine l).1.length ≤ (readSlice l).1.length := by
  dsimp only [readLine]
  split_ifs <;> simp at * <;> omega

theorem readLine_total_le (l : GoString) :
    (readLine l).1.length + (readLine l).2.2.length ≤ l.length := by
  have h1 := readLine_length_le l
  have h2 := readSlice_length l
  rw [readLine_rest]
  omega

theorem readLine_err (l : GoString) :
    (readLine l).2.1 = none ∨ (readLine l).2.1 = some .EOF := by
  have h := readSlice_err l
  dsimp only [readLine]
  split_ifs <;> first | exact h | simp

theorem readLine_rest_lt (l : GoString) (h : l ≠ []) : (readLine l).2.2.length < l.length := by
  have h1 := readSlice_ne_nil l h
  have h2 := readSlice_length l
  have h3 : 0 < (readSlice l).1.length := List.length_pos.mpr h1
  rw [readLine_rest]
  omega

theorem readLine_nil : readLine [] = ([], some .EOF, []) := by decide

theorem mem_of_getLast_eq {l : GoString} {c : Nat} (h : l.getLast? = some c) : c ∈ l := by
  rw [List.getLast?_eq_some_iff] at h
  obtain ⟨ys, rfl⟩ := h
  simp

theorem readLine_plain (l : GoString) (hne : l ≠ []) (h10 : 10 ∉ l) (h13 : 13 ∉ l) :
    readLine l = (l, none, []) := by
  have hlast13 : l.getLast? ≠ some 13 := fun e => h13 (mem_of_getLast_eq e)
  have hpos : 0 < l.length := List.length_pos.mpr hne
  have hget : l.get? (l.length - 1) ≠ some 10 := fun e => h10 (List.get?_mem e)
  simp only [readLine, readSlice_plain l h10]
  simp [hpos, hlast13, hget]
  intro _ _ h
  exfalso
  apply h10
  rw [← h]
  exact List.getElem_mem _
/-! ## Lemmas: one step of the field loops -/

theorem indexByte_lt : ∀ (l : GoString) (c i : Nat), indexByte l c = some i → i < l.length := by
  intro l c
  induction l with
  | nil => intro i h; simp [indexByte] at h
  | cons b bs ih =>
    intro i h
    by_cases hb : b = c
    · simp [indexByte, hb] at h; subst h; simp
    · simp only [indexByte, hb, if_false, Option.map_eq_some'] at h
      obtain ⟨j, hj, rfl⟩ := h
      have := ih j hj
      simp; omega

theorem readLine_err_reset (l : GoString) :
    (if (readLine l).2.1 = some ReadErr.EOF then none else (readLine l).2.1) = none := by
  rcases readLine_err l with h | h <;> simp [h]

theorem parseField_quoted (fuel : Nat) (t : GoString) (e : Option ReadErr) (rest : GoString)
    (fields : List GoString) :
    parseField (fuel + 1) (34 :: t) e rest fields = parseQuoted fuel t e rest fields [] := by
  rw [parseField]; simp

theorem parseField_comma (fuel : Nat) (line : GoString) (e : Option ReadErr) (rest : GoString)
    (fields : List GoString) (i : Nat) (hq : line.head? ≠ some 34)
    (hi : indexByte line 44 = some i) (hb : indexByte (line.take i) 34 = none) :
    parseField (fuel + 1) line e rest fields =
      parseField fuel (line.drop (i + 1)) e rest (fields ++ [line.take i]) := by
  rw [parseField]; simp [hq, hi, hb]

theorem parseField_comma_bare (fuel : Nat) (line : GoString) (e : Option ReadErr)
    (rest : GoString) (fields : List GoString) (i j : Nat) (hq : line.head? ≠ some 34)
    (hi : indexByte line 44 = some i) (hb : indexByte (line.take i) 34 = some j) :
    parseField (fuel + 1) line e rest fields = ⟨fields, some .ErrBareQuote, e⟩ := by
  rw [parseField]; simp [hq, hi, hb]

theorem parseField_last (fuel : Nat) (line : GoString) (e : Option ReadErr) (rest : GoString)
    (fields : List GoString) (hq : line.head? ≠ some 34)
    (hi : indexByte line 44 = none)
    (hb : indexByte (line.take (line.length - lengthNL line)) 34 = none) :
    parseField (fuel + 1) line e rest fields =
      ⟨fields ++ [line.take (line.length - lengthNL line)], none, e⟩ := by
  rw [parseField]; simp [hq, hi, hb]

theorem parseField_last_bare (fuel : Nat) (line : GoString) (e : Option ReadErr)
    (rest : GoString) (fields : List GoString) (j : Nat) (hq : line.head? ≠ some 34)
    (hi : indexByte line 44 = none)
    (hb : indexByte (line.take (line.length - lengthNL line)) 34 = some j) :
    parseField (fuel + 1) line e rest fields = ⟨fields, some .ErrBareQuote, e⟩ := by
  rw [parseField]; simp [hq, hi, hb]

theorem parseQuoted_doubled (fuel : Nat) (line : GoString) (e : Option ReadErr)
    (rest : GoString) (fields : List GoString) (cur : GoString) (i : Nat)
    (hi : indexByte line 34 = some i) (hn : (line.drop (i + 1)).head? = some 34) :
    parseQuoted (fuel + 1) line e rest fields cur =
      parseQuoted fuel ((line.drop (i + 1)).drop 1) e rest fields (cur ++ line.take i ++ [34]) := by
  rw [parseQuoted]; simp [hi, hn]

theorem parseQuoted_comma (fuel : Nat) (line : GoString) (e : Option ReadErr)
    (rest : GoString) (fields : List GoString) (cur : GoString) (i : Nat)
    (hi : indexByte line 34 = some i) (hn : (line.drop (i + 1)).head? = some 44) :
    parseQuoted (fuel + 1) line e rest fields cur =
      parseField fuel ((line.drop (i + 1)).drop 1) e rest (fields ++ [cur ++ line.take i]) := by
  rw [parseQuoted]; simp [hi, hn]

theorem parseQuoted_eol (fuel : Nat) (line : GoString) (e : Option ReadErr)
    (rest : GoString) (fields : List GoString) (cur : GoString) (i : Nat)
    (hi : indexByte line 34 = some i) (h34 : (line.drop (i + 1)).head? ≠ some 34)
    (h44 : (line.drop (i + 1)).head? ≠ some 44)
    (hn : lengthNL (line.drop (i + 1)) = (line.drop (i + 1)).length) :
    parseQuoted (fuel + 1) line e rest fields cur =
      ⟨fields ++ [cur ++ line.take i], none, e⟩ := by
  rw [parseQuoted]; simp only [hi]; rw [if_neg h34, if_neg h44, if_pos hn]

theorem parseQuoted_stray (fuel : Nat) (line : GoString) (e : Option ReadErr)
    (rest : GoString) (fields : List GoString) (cur : GoString) (i : Nat)
    (hi : indexByte line 34 = some i) (h34 : (line.drop (i + 1)).head? ≠ some 34)
    (h44 : (line.drop (i + 1)).head? ≠ some 44)
    (hn : lengthNL (line.drop (i + 1)) ≠ (line.drop (i + 1)).length) :
    parseQuoted (fuel + 1) line e rest fields cur = ⟨fields, some .ErrQuote, e⟩ := by
  rw [parseQuoted]; simp only [hi]; rw [if_neg h34, if_neg h44, if_neg hn]

theorem parseQuoted_nextLine (fuel : Nat) (line : GoString) (rest : GoString)
    (fields : List GoString) (cur : GoString)
    (hi : indexByte line 34 = none) (hne : line ≠ []) :
    parseQuoted (fuel + 1) line none rest fields cur =
      parseQuoted fuel (readLine rest).1 none (readLine rest).2.2 fields (cur ++ line) := by
  have hpos : 0 < line.length := List.length_pos.mpr hne
  rw [parseQuoted]; simp only [hi]; simp [hpos, readLine_err_reset]

theorem parseQuoted_readFailed (fuel : Nat) (line : GoString) (e : Option ReadErr)
    (rest : GoString) (fields : List GoString) (cur : GoString)
    (hi : indexByte line 34 = none) (hne : line ≠ []) (he : e ≠ none) :
    parseQuoted (fuel + 1) line e rest fields cur = ⟨fields, none, e⟩ := by
  have hpos : 0 < line.length := List.length_pos.mpr hne
  rw [parseQuoted]; simp only [hi]; simp [hpos, he]

theorem parseQuoted_abrupt (fuel : Nat) (rest : GoString)
    (fields : List GoString) (cur : GoString) :
    parseQuoted (fuel + 1) [] none rest fields cur = ⟨fields, some .ErrQuote, none⟩ := by
  rw [parseQuoted]; simp [indexByte]

theorem parseQuoted_abrupt_err (fuel : Nat) (e : Option ReadErr) (rest : GoString)
    (fields : List GoString) (cur : GoString) (he : e ≠ none) :
    parseQuoted (fuel + 1) [] e rest fields cur = ⟨fields ++ [cur], none, e⟩ := by
  rw [parseQuoted]; simp [indexByte, he]
/-! ## Lemmas: the fuel is adequate -/

theorem skipEmptyLines_adequate : ∀ (fuel : Nat) (input : GoString), input.length < fuel →
    (skipEmptyLines fuel input).2.1 ≠ some .fuelExhausted ∧
    (skipEmptyLines fuel input).1.length + (skipEmptyLines fuel input).2.2.length
      ≤ input.length := by
  intro fuel
  induction fuel with
  | zero => intro input h; omega
  | succ fuel ih =>
    intro input h
    rw [skipEmptyLines]
    by_cases hc : (readLine input).2.1 = none ∧ (readLine input).1.length = lengthNL (readLine input).1
    · have hne : input ≠ [] := by
        rintro rfl
        rw [readLine_nil] at hc
        simp at hc
      have hlt := readLine_rest_lt input hne
      obtain ⟨h1, h2⟩ := ih (readLine input).2.2 (by omega)
      simp only [hc, and_self, if_true]
      exact ⟨h1, by omega⟩
    · simp only [hc, if_false]
      refine ⟨?_, readLine_total_le input⟩
      rcases readLine_err input with h | h <;> rw [h] <;> simp

theorem exists_tail_of_quoted {line : GoString}
    (h : ¬(line.length = 0 ∨ line.head? ≠ some 34)) : ∃ t, line = 34 :: t := by
  cases line with
  | nil => simp at h
  | cons c t =>
    simp at h
    exact ⟨t, by rw [h]⟩

theorem parse_adequate : ∀ fuel : Nat,
    (∀ (line : GoString) (errRead : Option ReadErr) (rest : GoString) (fields : List GoString),
      line.length + rest.length < fuel → errRead ≠ some .fuelExhausted →
      (parseField fuel line errRead rest fields).err ≠ some .fuelExhausted ∧
      (parseField fuel line errRead rest fields).errRead ≠ some .fuelExhausted) ∧
    (∀ (line : GoString) (errRead : Option ReadErr) (rest : GoString) (fields : List GoString)
      (cur : GoString),
      line.length + rest.length < fuel → errRead ≠ some .fuelExhausted →
      (parseQuoted fuel line errRead rest fields cur).err ≠ some .fuelExhausted ∧
      (parseQuoted fuel line errRead rest fields cur).errRead ≠ some .fuelExhausted) := by
  intro fuel
  induction fuel with
  | zero => constructor <;> intros <;> omega
  | succ fuel ih =>
    obtain ⟨ihF, ihQ⟩ := ih
    constructor
    · intro line errRead rest fields hlen he
      by_cases hq : line.length = 0 ∨ line.head? ≠ some 34
      · have hq2 : line.head? ≠ some 34 := by
          rcases hq with h | h
          · rw [List.length_eq_zero] at h; subst h; simp
          · exact h
        cases hi : indexByte line 44 with
        | none =>
          cases hb : indexByte (line.take (line.length - lengthNL line)) 34 with
          | none => rw [parseField_last _ _ _ _ _ hq2 hi hb]; exact ⟨by simp, he⟩
          | some j => rw [parseField_last_bare _ _ _ _ _ j hq2 hi hb]; exact ⟨by simp, he⟩
        | some i =>
          have hlt := indexByte_lt _ _ _ hi
          cases hb : indexByte (line.take i) 34 with
          | none =>
            rw [parseField_comma _ _ _ _ _ i hq2 hi hb]
            apply ihF _ _ _ _ _ he
            simp; omega
          | some j => rw [parseField_comma_bare _ _ _ _ _ i j hq2 hi hb]; exact ⟨by simp, he⟩
      · obtain ⟨t, rfl⟩ := exists_tail_of_quoted hq
        rw [parseField_quoted]
        apply ihQ _ _ _ _ _ _ he
        simp at hlen; omega
    · intro line errRead rest fields cur hlen he
      cases hi : indexByte line 34 with
      | some i =>
        have hlt := indexByte_lt _ _ _ hi
        by_cases h34 : (line.drop (i + 1)).head? = some 34
        · rw [parseQuoted_doubled _ _ _ _ _ _ i hi h34]
          apply ihQ _ _ _ _ _ _ he
          simp; omega
        · by_cases h44 : (line.drop (i + 1)).head? = some 44
          · rw [parseQuoted_comma _ _ _ _ _ _ i hi h44]
            apply ihF _ _ _ _ _ he
            simp; omega
          · by_cases hn : lengthNL (line.drop (i + 1)) = (line.drop (i + 1)).length
            · rw [parseQuoted_eol _ _ _ _ _ _ i hi h34 h44 hn]; exact ⟨by simp, he⟩
            · rw [parseQuoted_stray _ _ _ _ _ _ i hi h34 h44 hn]; exact ⟨by simp, he⟩
      | none =>
        by_cases hne : line = []
        · subst hne
          by_cases hen : errRead = none
          · subst hen; rw [parseQuoted_abrupt]; exact ⟨by simp, by simp⟩
          · rw [parseQuoted_abrupt_err _ _ _ _ _ hen]; exact ⟨by simp, he⟩
        · by_cases hen : errRead = none
          · subst hen
            rw [parseQuoted_nextLine _ _ _ _ _ hi hne]
            have := readLine_total_le rest
            have := List.length_pos.mpr hne
            apply ihQ _ _ _ _ _ _ (by simp)
            omega
          · rw [parseQuoted_readFailed _ _ _ _ _ _ hi hne hen]; exact ⟨by simp, he⟩

/-- The fuel given to the loops of `readRecord` by `Reader.Read` is never used up. -/
theorem Reader.Read_fuel_adequate (input : GoString) :
    (Reader.Read input).2 ≠ some .fuelExhausted := by
  obtain ⟨h1, h2⟩ := skipEmptyLines_adequate (input.length + 1) input (by omega)
  obtain ⟨h3, h4⟩ := (parse_adequate (input.length + 1)).1
    (skipEmptyLines (input.length + 1) input).1 (skipEmptyLines (input.length + 1) input).2.1
    (skipEmptyLines (input.length + 1) input).2.2 [] (by omega) h1
  unfold Reader.Read readRecord
  dsimp only
  by_cases ha : (skipEmptyLines (input.length + 1) input).2.1 = some .EOF
  · simp [ha]
  · simp only [ha, if_false]
    simp only [h1, if_false]
    by_cases hb : (parseField (input.length + 1) (skipEmptyLines (input.length + 1) input).1
        (skipEmptyLines (input.length + 1) input).2.1
        (skipEmptyLines (input.length + 1) input).2.2 []).err = none
    · simp only [hb, if_true]; exact h4
    · simp only [hb, if_false]; exact h3
/-! ## Lemmas: strconv.ParseUint -/

theorem decimalValueFrom_nil (n : Nat) : decimalValueFrom n [] = n := rfl

theorem decimalValueFrom_cons (n c : Nat) (cs : GoString) :
    decimalValueFrom n (c :: cs) = decimalValueFrom (10 * n + (c - 48)) cs := rfl

theorem le_decimalValueFrom : ∀ (cs : GoString) (n : Nat), n ≤ decimalValueFrom n cs := by
  intro cs
  induction cs with
  | nil => intro n; rw [decimalValueFrom_nil]
  | cons c cs ih =>
    intro n
    have := ih (10 * n + (c - 48))
    rw [decimalValueFrom_cons]
    omega

theorem ParseUint.loop_digits (s0 : GoString) : ∀ (cs : GoString) (n : Nat),
    (∀ c ∈ cs, isDigit c) → n ≤ 255 →
    ParseUint.loop s0 10 ((2 ^ 64 - 1) / 10 + 1) (2 ^ 8 - 1) cs n =
      if decimalValueFrom n cs ≤ 255 then (decimalValueFrom n cs, none)
      else (255, some (rangeError fnParseUint s0)) := by
  intro cs
  induction cs with
  | nil => intro n _ hn; simp [ParseUint.loop, decimalValueFrom_nil, hn]
  | cons c cs ih =>
    intro n hd hn
    have hc : 48 ≤ c ∧ c ≤ 57 := hd c (by simp)
    have hcs : ∀ c ∈ cs, isDigit c := fun x hx => hd x (List.mem_cons_of_mem _ hx)
    have hmod1 : n * 10 % 2 ^ 64 = n * 10 := Nat.mod_eq_of_lt (by omega)
    have hmod2 : (n * 10 + (c - 48)) % 2 ^ 64 = n * 10 + (c - 48) := Nat.mod_eq_of_lt (by omega)
    have hd10 : ¬ (c - 48 ≥ 10) := by omega
    have hcut : ¬ (n ≥ (2 ^ 64 - 1) / 10 + 1) := by norm_num; omega
    rw [ParseUint.loop]
    simp only [hc, and_self, if_true, hd10, if_false, hcut, hmod1, hmod2]
    by_cases hbig : n * 10 + (c - 48) > 2 ^ 8 - 1
    · have h1 := le_decimalValueFrom cs (10 * n + (c - 48))
      have h2 : ¬ decimalValueFrom n (c :: cs) ≤ 255 := by
        rw [decimalValueFrom_cons]; norm_num at hbig; omega
      have hbig2 : n * 10 + (c - 48) < n * 10 ∨ n * 10 + (c - 48) > 2 ^ 8 - 1 := Or.inr hbig
      rw [if_pos hbig2, if_neg h2]
      norm_num
    · have hlt : ¬ (n * 10 + (c - 48) < n * 10) := by omega
      simp only [hbig, hlt, or_self, if_false]
      rw [ih _ hcs (by norm_num at hbig; omega)]
      rw [decimalValueFrom_cons, Nat.mul_comm]

theorem ParseUint.loop_nondigit (s0 : GoString) (cutoff maxVal : Nat) : ∀ (cs : GoString)
    (n : Nat), ¬ (∀ c ∈ cs, isDigit c) →
    (ParseUint.loop s0 10 cutoff maxVal cs n).2 ≠ none := by
  intro cs
  induction cs with
  | nil => intro n h; simp at h
  | cons c cs ih =>
    intro n h
    rw [ParseUint.loop]
    by_cases hc : 48 ≤ c ∧ c ≤ 57
    · have hcs : ¬ ∀ c ∈ cs, isDigit c := by
        intro hall
        apply h
        intro x hx
        rcases List.mem_cons.mp hx with rfl | hx
        · exact hc
        · exact hall x hx
      simp only [hc, and_self, if_true]
      split_ifs
      · simp
      · simp
      · simp
      · exact ih _ hcs
    · simp only [hc, if_false]
      by_cases hl : 97 ≤ lower c ∧ lower c ≤ 122
      · have : lower c - 97 + 10 ≥ 10 := by omega
        simp [hl, this]
      · simp [hl]

/-- `ParseUint` returns no error exactly on the valid tokens. -/
theorem ParseUint_err_eq_none_iff (p : GoString) : (ParseUint p).2 = none ↔ validToken p := by
  unfold ParseUint validToken decimalValue
  by_cases hp : p = []
  · simp [hp]
  · simp only [hp, if_false, ne_eq, not_false_eq_true, true_and]
    by_cases hd : ∀ c ∈ p, isDigit c
    · rw [ParseUint.loop_digits p p 0 hd (by omega)]
      by_cases hv : decimalValueFrom 0 p ≤ 255
      · simp only [hv, if_true, and_true, true_iff]; exact hd
      · simp [hv]
    · have := ParseUint.loop_nondigit p ((2 ^ 64 - 1) / 10 + 1) (2 ^ 8 - 1) p 0 hd
      simp only [this, false_iff, not_and]
      intro h; exact absurd h hd

/-- On a valid token `ParseUint` returns its decimal value. -/
theorem ParseUint_of_valid (p : GoString) (h : validToken p) :
    ParseUint p = (decimalValue p, none) := by
  obtain ⟨hp, hd, hv⟩ := h
  unfold ParseUint
  simp only [hp, if_false]
  rw [ParseUint.loop_digits p p 0 hd (by omega)]
  unfold decimalValue at hv
  simp [hv, decimalValue]
/-! ## Lemmas: searching and splitting -/

theorem indexByte_eq_none_iff (l : GoString) (c : Nat) : indexByte l c = none ↔ c ∉ l := by
  induction l with
  | nil => simp [indexByte]
  | cons b bs ih =>
    by_cases hb : b = c
    · simp [indexByte, hb]
    · have hcb : ¬ c = b := fun e => hb e.symm
      simp [indexByte, hb, ih, hcb]

theorem indexByte_split : ∀ (l : GoString) (c i : Nat), indexByte l c = some i →
    l = l.take i ++ c :: l.drop (i + 1) ∧ c ∉ l.take i := by
  intro l c
  induction l with
  | nil => intro i h; simp [indexByte] at h
  | cons b bs ih =>
    intro i h
    by_cases hb : b = c
    · simp [indexByte, hb] at h; subst h; simp [hb]
    · simp only [indexByte, hb, if_false, Option.map_eq_some'] at h
      obtain ⟨j, hj, rfl⟩ := h
      obtain ⟨h1, h2⟩ := ih j hj
      have hcb : ¬ c = b := fun e => hb e.symm
      constructor
      · simp only [List.take_succ_cons, List.drop_succ_cons, List.cons_append]
        rw [← h1]
      · simp [hcb, h2]

theorem indexByte_append_of_not_mem (a b : GoString) (c : Nat) (h : c ∉ a) :
    indexByte (a ++ c :: b) c = some a.length := by
  induction a with
  | nil => simp [indexByte]
  | cons x xs ih =>
    have hx : x ≠ c := fun e => h (by simp [e])
    have hxs : c ∉ xs := fun e => h (List.mem_cons_of_mem _ e)
    simp [indexByte, hx, ih hxs]

theorem splitComma_ne_nil (l : GoString) : splitComma l ≠ [] := by
  cases l with
  | nil => simp [splitComma]
  | cons c cs =>
    rw [splitComma]
    split_ifs
    · simp
    · split <;> simp

theorem splitComma_of_not_mem (a : GoString) (h : 44 ∉ a) : splitComma a = [a] := by
  induction a with
  | nil => rfl
  | cons x xs ih =>
    have hx : x ≠ 44 := fun e => h (by simp [e])
    have hxs : 44 ∉ xs := fun e => h (List.mem_cons_of_mem _ e)
    rw [splitComma]
    simp [hx, ih hxs]

theorem splitComma_append_comma (a b : GoString) (h : 44 ∉ a) :
    splitComma (a ++ 44 :: b) = a :: splitComma b := by
  induction a with
  | nil => simp [splitComma]
  | cons x xs ih =>
    have hx : x ≠ 44 := fun e => h (by simp [e])
    have hxs : 44 ∉ xs := fun e => h (List.mem_cons_of_mem _ e)
    rw [List.cons_append, splitComma]
    simp [hx, ih hxs]

theorem lengthNL_of_not_mem (l : GoString) (h : 10 ∉ l) : lengthNL l = 0 := by
  unfold lengthNL
  have : l.getLast? ≠ some 10 := fun e => h (mem_of_getLast_eq e)
  simp [this]

/-! ## Lemmas: tokenizing a line without quotes -/

theorem parseField_plain : ∀ (fuel : Nat) (line : GoString) (e : Option ReadErr)
    (rest : GoString) (fields : List GoString), 34 ∉ line → 10 ∉ line → line.length < fuel →
    parseField fuel line e rest fields = ⟨fields ++ splitComma line, none, e⟩ := by
  intro fuel
  induction fuel with
  | zero => intro line e rest fields _ _ h; omega
  | succ fuel ih =>
    intro line e rest fields h34 h10 hlen
    have hq : line.head? ≠ some 34 := fun h => h34 (List.mem_of_mem_head? h)
    cases hi : indexByte line 44 with
    | none =>
      have h44 : 44 ∉ line := (indexByte_eq_none_iff _ _).mp hi
      have hnl := lengthNL_of_not_mem line h10
      have hb : indexByte (line.take (line.length - lengthNL line)) 34 = none := by
        rw [hnl]; simp; exact (indexByte_eq_none_iff _ _).mpr h34
      rw [parseField_last _ _ _ _ _ hq hi hb, hnl, splitComma_of_not_mem _ h44]
      simp
    | some i =>
      obtain ⟨hsplit, hnot⟩ := indexByte_split _ _ _ hi
      have hlt := indexByte_lt _ _ _ hi
      have hb : indexByte (line.take i) 34 = none :=
        (indexByte_eq_none_iff _ _).mpr (fun h => h34 (List.mem_of_mem_take h))
      rw [parseField_comma _ _ _ _ _ i hq hi hb]
      rw [ih _ _ _ _ (fun h => h34 (List.mem_of_mem_drop h))
        (fun h => h10 (List.mem_of_mem_drop h)) (by simp; omega)]
      conv_rhs => rw [hsplit, splitComma_append_comma _ _ hnot]
      simp

theorem skipEmptyLines_plain (fuel : Nat) (raw : GoString) (hne : raw ≠ [])
    (h10 : 10 ∉ raw) (h13 : 13 ∉ raw) : skipEmptyLines (fuel + 1) raw = (raw, none, []) := by
  have hpos : 0 < raw.length := List.length_pos.mpr hne
  have hnl := lengthNL_of_not_mem raw h10
  rw [skipEmptyLines, readLine_plain raw hne h10 h13]
  have : ¬ (raw.length = lengthNL raw) := by omega
  simp [this]

/-- On a non-empty raw string without double quote, carriage return or line feed, the
CSV reader returns the pieces between the commas. -/
theorem Reader.Read_plain (raw : GoString) (hne : raw ≠ []) (hp : plain raw) :
    Reader.Read raw = (splitComma raw, none) := by
  obtain ⟨h34, h13, h10⟩ := hp
  unfold Reader.Read readRecord
  rw [skipEmptyLines_plain _ raw hne h10 h13]
  simp [parseField_plain _ raw none [] [] h34 h10 (Nat.lt_succ_self _)]

theorem readAsCSV_plain (raw : GoString) (hne : raw ≠ []) (hp : plain raw) :
    readAsCSV raw = (splitComma raw, none) := by
  unfold readAsCSV
  simp [hne, Reader.Read_plain raw hne hp]

/-! ## Lemmas: the loop of Set -/

theorem Set.loop_valid : ∀ (vs : List GoString) (acc : List Nat), (∀ v ∈ vs, validToken v) →
    Set.loop vs acc = (acc ++ vs.map decimalValue, none) := by
  intro vs
  induction vs with
  | nil => intro acc _; simp [Set.loop]
  | cons v vs ih =>
    intro acc h
    have hv : validToken v := h v (by simp)
    have hvs : ∀ v ∈ vs, validToken v := fun x hx => h x (List.mem_cons_of_mem _ hx)
    have hmod : decimalValue v % 256 = decimalValue v := Nat.mod_eq_of_lt (by have := hv.2.2; omega)
    rw [Set.loop, ParseUint_of_valid v hv]
    simp only
    rw [ih _ hvs, hmod]
    simp

theorem Set.loop_invalid : ∀ (vs : List GoString) (acc : List Nat),
    ¬ (∀ v ∈ vs, validToken v) → (Set.loop vs acc).2 ≠ none := by
  intro vs
  induction vs with
  | nil => intro acc h; simp at h
  | cons v vs ih =>
    intro acc h
    rw [Set.loop]
    by_cases hv : validToken v
    · have hvs : ¬ ∀ v ∈ vs, validToken v := by
        intro hall
        apply h
        intro x hx
        rcases List.mem_cons.mp hx with rfl | hx
        · exact hv
        · exact hall x hx
      rw [ParseUint_of_valid v hv]
      exact ih _ hvs
    · have hne : (ParseUint v).2 ≠ none := fun e => hv ((ParseUint_err_eq_none_iff v).mp e)
      rcases hpu : ParseUint v with ⟨n, err⟩
      rw [hpu] at hne
      cases err with
      | none => exact absurd rfl hne
      | some err => simp

theorem Set.loop_err_eq_none_iff (vs : List GoString) (acc : List Nat) :
    (Set.loop vs acc).2 = none ↔ ∀ v ∈ vs, validToken v := by
  constructor
  · intro h
    by_contra hn
    exact Set.loop_invalid vs acc hn h
  · intro h
    rw [Set.loop_valid vs acc h]
/-! ## Lemmas: Set -/

theorem Set_of_csv_err (s : optionCodeSliceValue) (raw : GoString) (e : ReadErr)
    (h : (readAsCSV raw).2 = some e) : s.Set raw = (s, some (.csv e)) := by
  unfold optionCodeSliceValue.Set
  rcases hr : readAsCSV raw with ⟨values, err⟩
  rw [hr] at h
  simp only at h
  subst h
  rfl

theorem Set_of_loop_err (s : optionCodeSliceValue) (raw : GoString) (e : GoError)
    (h1 : (readAsCSV raw).2 = none) (h2 : (Set.loop (readAsCSV raw).1 []).2 = some e) :
    s.Set raw = (s, some e) := by
  unfold optionCodeSliceValue.Set
  rcases hr : readAsCSV raw with ⟨values, err⟩
  rw [hr] at h1 h2
  simp only at h1 h2
  subst h1
  rcases hl : Set.loop values [] with ⟨codes, err⟩
  rw [hl] at h2
  simp only at h2
  subst h2
  simp only [hl]

theorem Set_of_ok (s : optionCodeSliceValue) (raw : GoString)
    (h1 : (readAsCSV raw).2 = none) (h2 : (Set.loop (readAsCSV raw).1 []).2 = none) :
    s.Set raw =
      (⟨if s.changed then s.value ++ (Set.loop (readAsCSV raw).1 []).1
        else (Set.loop (readAsCSV raw).1 []).1, true⟩, none) := by
  unfold optionCodeSliceValue.Set
  rcases hr : readAsCSV raw with ⟨values, err⟩
  rw [hr] at h1 h2
  simp only at h1 h2
  subst h1
  rcases hl : Set.loop values [] with ⟨codes, err⟩
  rw [hl] at h2
  simp only at h2
  subst h2
  cases s.changed <;> simp [hl]

/-- The three ways a call of `Set` can end. -/
theorem Set_cases (s : optionCodeSliceValue) (raw : GoString) :
    (∃ e, s.Set raw = (s, some e)) ∨
    ((readAsCSV raw).2 = none ∧ (Set.loop (readAsCSV raw).1 []).2 = none ∧
      s.Set raw =
        (⟨if s.changed then s.value ++ (Set.loop (readAsCSV raw).1 []).1
          else (Set.loop (readAsCSV raw).1 []).1, true⟩, none)) := by
  cases h1 : (readAsCSV raw).2 with
  | some e => exact Or.inl ⟨_, Set_of_csv_err s raw e h1⟩
  | none =>
    cases h2 : (Set.loop (readAsCSV raw).1 []).2 with
    | some e => exact Or.inl ⟨_, Set_of_loop_err s raw e h1 h2⟩
    | none => exact Or.inr ⟨rfl, rfl, Set_of_ok s raw h1 h2⟩

/-- Whether `Set` returns an error does not depend on the receiver. -/
theorem Set_err_eq_none_iff (s : optionCodeSliceValue) (raw : GoString) :
    (s.Set raw).2 = none ↔
      (readAsCSV raw).2 = none ∧ (Set.loop (readAsCSV raw).1 []).2 = none := by
  constructor
  · intro h
    rcases Set_cases s raw with ⟨e, he⟩ | ⟨h1, h2, _⟩
    · rw [he] at h; simp at h
    · exact ⟨h1, h2⟩
  · rintro ⟨h1, h2⟩
    rw [Set_of_ok s raw h1 h2]

/-- In a reachable state an unchanged value holds no codes. -/
theorem Reachable.value_eq_nil {s : optionCodeSliceValue} (h : Reachable s) :
    s.changed = false → s.value = [] := by
  induction h with
  | new => intro _; rfl
  | set s raw _ ih =>
    rcases Set_cases s raw with ⟨e, he⟩ | ⟨_, _, hok⟩
    · rw [he]; exact ih
    · rw [hok]; intro h; simp at h

/-- A successful `Set` on a state that holds no codes while unchanged appends the
tokens of the raw string, each read in base 10, and sets the flag. -/
theorem Set_value_of_ok (s : optionCodeSliceValue) (raw : GoString)
    (hinv : s.changed = false → s.value = []) (h : (s.Set raw).2 = none) :
    (s.Set raw).1.value = s.value ++ parsedCodes raw ∧ (s.Set raw).1.changed = true := by
  obtain ⟨h1, h2⟩ := (Set_err_eq_none_iff s raw).mp h
  have hloop := Set.loop_valid _ [] ((Set.loop_err_eq_none_iff _ _).mp h2)
  rw [Set_of_ok s raw h1 h2, hloop]
  unfold parsedCodes
  cases hc : s.changed
  · simp [hinv hc]
  · simp

theorem setAll_value : ∀ (rs : List GoString) (s : optionCodeSliceValue),
    (s.changed = false → s.value = []) → allSucceed s rs →
    (setAll s rs).value = s.value ++ (rs.map parsedCodes).flatten := by
  intro rs
  induction rs with
  | nil => intro s _ _; simp [setAll]
  | cons r rs ih =>
    intro s hinv hall
    obtain ⟨hr, hrs⟩ := hall
    obtain ⟨hv, hc⟩ := Set_value_of_ok s r hinv hr
    rw [setAll, ih (s.Set r).1 (fun h => by rw [hc] at h; simp at h) hrs, hv]
    simp

theorem parsedCodes_plain (raw : GoString) (hp : plain raw) :
    parsedCodes raw = plainCodes raw := by
  unfold parsedCodes plainCodes
  by_cases hne : raw = []
  · subst hne; rfl
  · rw [readAsCSV_plain raw hne hp, if_neg hne]

/-! ## Theorems about the claims -/

/-- Claim C1: starting from the value made by `NewOptionCodeSliceValue`, if every one of
the calls `Set r1`, ..., `Set rn` succeeds, then `GetOptionCodesValue` returns, without
error, the concatenation in call order of the codes parsed from each `ri`, that is of
the base-10 readings of the CSV tokens of `ri` in order: nothing is dropped,
deduplicated or reordered.  When no `ri` has a double quote, carriage return or line
feed, the tokens are the pieces of `ri` between its commas (none for the empty
string). -/
theorem Set_accumulates (rs : List GoString) (h : allSucceed NewOptionCodeSliceValue rs) :
    GetOptionCodesValue (.optionCodeSlice (setAll NewOptionCodeSliceValue rs)) =
      ((rs.map parsedCodes).flatten, none) ∧
    ((∀ r ∈ rs, plain r) →
      GetOptionCodesValue (.optionCodeSlice (setAll NewOptionCodeSliceValue rs)) =
        ((rs.map plainCodes).flatten, none)) := by
  have hval := setAll_value rs NewOptionCodeSliceValue (fun _ => rfl) h
  have hget : GetOptionCodesValue (.optionCodeSlice (setAll NewOptionCodeSliceValue rs)) =
      ((rs.map parsedCodes).flatten, none) := by
    simp only [GetOptionCodesValue, hval]
    simp [NewOptionCodeSliceValue]
  refine ⟨hget, fun hp => ?_⟩
  rw [hget]
  have : rs.map parsedCodes = rs.map plainCodes :=
    List.map_congr_left (fun r hr => parsedCodes_plain r (hp r hr))
  rw [this]

/-- Witness of C1: `Set "1,2"` then `Set "3"` gives `[1,2,3]`, `Set "1,3,6"` then
`Set "12"` gives `[1,3,6,12]`, and a repeated code is kept: `Set "1,1"` then `Set "1"`
gives `[1,1,1]`. -/
theorem Set_accumulates_witness :
    GetOptionCodesValue
        (.optionCodeSlice (setAll NewOptionCodeSliceValue [bytes "1,2", bytes "3"])) =
      ([1, 2, 3], none) ∧
    GetOptionCodesValue
        (.optionCodeSlice (setAll NewOptionCodeSliceValue [bytes "1,3,6", bytes "12"])) =
      ([1, 3, 6, 12], none) ∧
    GetOptionCodesValue
        (.optionCodeSlice (setAll NewOptionCodeSliceValue [bytes "1,1", bytes "1"])) =
      ([1, 1, 1], none) :=
  ⟨(Set_accumulates [bytes "1,2", bytes "3"] ⟨by decide, by decide, trivial⟩).2
      (by decide),
   (Set_accumulates [bytes "1,3,6", bytes "12"] ⟨by decide, by decide, trivial⟩).2
      (by decide),
   (Set_accumulates [bytes "1,1", bytes "1"] ⟨by decide, by decide, trivial⟩).1⟩

/-- Claim C2: for every non-empty raw string without double quote, carriage return or
line feed, and whatever the state, `Set` succeeds exactly when every piece between the
commas is a non-empty string of ASCII digits of decimal value at most 255; an empty
piece, a sign, a non-digit, a value of 256 or more and a piece with a leading space
each make the call fail. -/
theorem Set_succeeds_iff_valid_tokens :
    (∀ (s : optionCodeSliceValue) (raw : GoString), raw ≠ [] → plain raw →
      ((s.Set raw).2 = none ↔ ∀ p ∈ splitComma raw, validToken p)) ∧
    (∀ s : optionCodeSliceValue,
      (s.Set (bytes "1,,2")).2 ≠ none ∧ (s.Set (bytes "1,")).2 ≠ none ∧
      (s.Set (bytes "+5")).2 ≠ none ∧ (s.Set (bytes "-1")).2 ≠ none ∧
      (s.Set (bytes "abc")).2 ≠ none ∧ (s.Set (bytes "256")).2 ≠ none ∧
      (s.Set (bytes " 5")).2 ≠ none ∧ (s.Set (bytes "007,255")).2 = none) := by
  have key : ∀ (s : optionCodeSliceValue) (raw : GoString), raw ≠ [] → plain raw →
      ((s.Set raw).2 = none ↔ ∀ p ∈ splitComma raw, validToken p) := by
    intro s raw hne hp
    rw [Set_err_eq_none_iff, readAsCSV_plain raw hne hp]
    simp only [true_and]
    exact Set.loop_err_eq_none_iff _ _
  refine ⟨key, fun s => ⟨?_, ?_, ?_, ?_, ?_, ?_, ?_, ?_⟩⟩
  · rw [ne_eq, key s _ (by decide) (by decide)]; decide
  · rw [ne_eq, key s _ (by decide) (by decide)]; decide
  · rw [ne_eq, key s _ (by decide) (by decide)]; decide
  · rw [ne_eq, key s _ (by decide) (by decide)]; decide
  · rw [ne_eq, key s _ (by decide) (by decide)]; decide
  · rw [ne_eq, key s _ (by decide) (by decide)]; decide
  · rw [ne_eq, key s _ (by decide) (by decide)]; decide
  · rw [key s _ (by decide) (by decide)]; decide

/-- Witness of C2 at the raw string `7,255` on a fresh value. -/
theorem Set_succeeds_iff_valid_tokens_witness :
    (bytes "7,255" ≠ [] ∧ plain (bytes "7,255")) ∧
    ((NewOptionCodeSliceValue.Set (bytes "7,255")).2 = none ↔
      ∀ p ∈ splitComma (bytes "7,255"), validToken p) :=
  ⟨⟨by decide, by decide⟩,
   Set_succeeds_iff_valid_tokens.1 NewOptionCodeSliceValue (bytes "7,255") (by decide)
     (by decide)⟩

/-- Claim C3: in every state (any sequence, any value of the flag) and for every raw
string, if `Set` returns an error then the state after the call, sequence and flag, is
the state before it. -/
theorem Set_error_leaves_state (s : optionCodeSliceValue) (raw : GoString)
    (h : (s.Set raw).2 ≠ none) : (s.Set raw).1 = s := by
  rcases Set_cases s raw with ⟨e, he⟩ | ⟨_, _, hok⟩
  · rw [he]
  · rw [hok] at h; simp at h

/-- Witness of C3: after `Set "1,2"`, the calls `Set "3,256"` and `Set "3,abc"` fail and
leave the value at `[1,2]`. -/
theorem Set_error_leaves_state_witness :
    (((NewOptionCodeSliceValue.Set (bytes "1,2")).1.Set (bytes "3,256")).2 ≠ none ∧
      ((NewOptionCodeSliceValue.Set (bytes "1,2")).1.Set (bytes "3,256")).1 = ⟨[1, 2], true⟩) ∧
    (((NewOptionCodeSliceValue.Set (bytes "1,2")).1.Set (bytes "3,abc")).2 ≠ none ∧
      ((NewOptionCodeSliceValue.Set (bytes "1,2")).1.Set (bytes "3,abc")).1 = ⟨[1, 2], true⟩) :=
  ⟨⟨by decide,
    Set_error_leaves_state (NewOptionCodeSliceValue.Set (bytes "1,2")).1 (bytes "3,256")
      (by decide)⟩,
   ⟨by decide,
    Set_error_leaves_state (NewOptionCodeSliceValue.Set (bytes "1,2")).1 (bytes "3,abc")
      (by decide)⟩⟩
theorem splitComma_length (l : GoString) : (splitComma l).length = l.count 44 + 1 := by
  induction l with
  | nil => rfl
  | cons c cs ih =>
    rw [splitComma]
    by_cases hc : c = 44
    · simp [hc, ih]
    · have hne := splitComma_ne_nil cs
      rcases hs : splitComma cs with _ | ⟨p, ps⟩
      · exact absurd hs hne
      · rw [hs] at ih
        simp only [hc, if_false, List.length_cons] at ih ⊢
        rw [List.count_cons_of_ne (fun e => hc e.symm)]
        exact ih

/-- Claim C5: for every non-empty raw string without double quote, carriage return or
line feed on which `Set` succeeds on a fresh value, the resulting sequence has (number
of commas in raw) + 1 elements and is, piece by piece and in the same order, the base-10
value of the pieces of raw between the commas; `007,255,0` gives `[7,255,0]`. -/
theorem Set_values_are_decimal_readings (raw : GoString) (hne : raw ≠ []) (hp : plain raw)
    (hok : (NewOptionCodeSliceValue.Set raw).2 = none) :
    (NewOptionCodeSliceValue.Set raw).1.value = (splitComma raw).map decimalValue ∧
    (NewOptionCodeSliceValue.Set raw).1.value.length = raw.count 44 + 1 ∧
    (∀ i : Nat, i < raw.count 44 + 1 →
      (NewOptionCodeSliceValue.Set raw).1.value.get? i =
        ((splitComma raw).get? i).map decimalValue) := by
  obtain ⟨h1, h2⟩ := (Set_err_eq_none_iff _ raw).mp hok
  have hval : (NewOptionCodeSliceValue.Set raw).1.value = (splitComma raw).map decimalValue := by
    rw [Set_of_ok _ raw h1 h2]
    rw [readAsCSV_plain raw hne hp] at h2 ⊢
    have hall := (Set.loop_err_eq_none_iff _ _).mp h2
    simp only at hall ⊢
    rw [Set.loop_valid _ _ hall]
    simp [NewOptionCodeSliceValue]
  refine ⟨hval, ?_, ?_⟩
  · rw [hval, List.length_map, splitComma_length]
  · intro i _
    rw [hval]
    simp

/-- Witness of C5 at the raw string `007,255,0`. -/
theorem Set_values_are_decimal_readings_witness :
    (NewOptionCodeSliceValue.Set (bytes "007,255,0")).1.value = [7, 255, 0] ∧
    (NewOptionCodeSliceValue.Set (bytes "007,255,0")).1.value.length = 2 + 1 :=
  have h := Set_values_are_decimal_readings (bytes "007,255,0") (by decide) (by decide)
    (by decide)
  ⟨h.1, h.2.1⟩

/-- Claim C6: in every state reachable from `NewOptionCodeSliceValue` by `Set` calls,
`Set ""` returns no error, leaves the sequence as it was and leaves the flag true;
so a value on which `Set` was never called, or was only ever called with `""`, yields
the empty sequence from `GetOptionCodesValue`. -/
theorem Set_empty_string :
    (∀ s : optionCodeSliceValue, Reachable s →
      (s.Set []).2 = none ∧ (s.Set []).1.value = s.value ∧ (s.Set []).1.changed = true) ∧
    GetOptionCodesValue (.optionCodeSlice NewOptionCodeSliceValue) = ([], none) ∧
    (∀ n : Nat,
      GetOptionCodesValue
        (.optionCodeSlice (setAll NewOptionCodeSliceValue (List.replicate n []))) =
          ([], none)) := by
  have hset : ∀ s : optionCodeSliceValue,
      s.Set [] = (⟨if s.changed then s.value else [], true⟩, none) := by
    intro s
    rw [Set_of_ok s [] (by decide) (by decide)]
    have : (Set.loop (readAsCSV []).1 []).1 = [] := by decide
    rw [this]
    simp
  refine ⟨?_, rfl, ?_⟩
  · intro s hs
    rw [hset]
    refine ⟨rfl, ?_, rfl⟩
    cases hc : s.changed
    · simp [hs.value_eq_nil hc]
    · simp
  · have key : ∀ (n : Nat) (s : optionCodeSliceValue), s.value = [] →
        (setAll s (List.replicate n [])).value = [] := by
      intro n
      induction n with
      | zero => intro s hs; simpa [setAll] using hs
      | succ n ih =>
        intro s hs
        rw [List.replicate_succ, setAll]
        apply ih
        rw [hset]
        cases s.changed <;> simp [hs]
    intro n
    simp [GetOptionCodesValue, key n NewOptionCodeSliceValue rfl]

/-- Witness of C6 in the reachable state after `Set "1,2"`. -/
theorem Set_empty_string_witness :
    Reachable (NewOptionCodeSliceValue.Set (bytes "1,2")).1 ∧
    (((NewOptionCodeSliceValue.Set (bytes "1,2")).1.Set []).2 = none ∧
      ((NewOptionCodeSliceValue.Set (bytes "1,2")).1.Set []).1.value =
        (NewOptionCodeSliceValue.Set (bytes "1,2")).1.value ∧
      ((NewOptionCodeSliceValue.Set (bytes "1,2")).1.Set []).1.changed = true) :=
  ⟨Reachable.set _ _ Reachable.new,
   Set_empty_string.1 _ (Reachable.set _ _ Reachable.new)⟩
/-! ## Lemmas: joining and rendering -/

theorem Join_cons (e : GoString) (es : List GoString) (sep : GoString) :
    Join (e :: es) sep = e ++ es.foldr (fun s acc => sep ++ s ++ acc) [] := by
  cases es <;> simp [Join]

theorem Join_cons_cons (e e2 : GoString) (es : List GoString) (sep : GoString) :
    Join (e :: e2 :: es) sep = e ++ sep ++ Join (e2 :: es) sep := by
  rw [Join_cons, Join_cons]
  simp

theorem Join_eq_intercalate (es : List GoString) (sep : GoString) :
    Join es sep = sep.intercalate es := by
  induction es with
  | nil => rfl
  | cons e es ih =>
    cases es with
    | nil => simp [Join, List.intercalate]
    | cons e2 es =>
      rw [Join_cons_cons, ih]
      simp [List.intercalate]

theorem splitComma_Join : ∀ (ps : List GoString), ps ≠ [] → (∀ p ∈ ps, 44 ∉ p) →
    splitComma (Join ps [44]) = ps := by
  intro ps
  induction ps with
  | nil => intro h; exact absurd rfl h
  | cons p ps ih =>
    intro _ h
    have hp : 44 ∉ p := h p (by simp)
    cases ps with
    | nil => simpa [Join] using splitComma_of_not_mem p hp
    | cons p2 ps =>
      rw [Join_cons_cons, List.append_assoc, List.singleton_append,
        splitComma_append_comma _ _ hp,
        ih (by simp) (fun x hx => h x (List.mem_cons_of_mem _ hx))]

theorem mem_Join : ∀ (ps : List GoString) (sep : GoString) (c : Nat), c ∈ Join ps sep →
    c ∈ sep ∨ ∃ p ∈ ps, c ∈ p := by
  intro ps sep c
  induction ps with
  | nil => intro h; simp [Join] at h
  | cons p ps ih =>
    cases ps with
    | nil => intro h; exact Or.inr ⟨p, by simp, by simpa [Join] using h⟩
    | cons p2 ps =>
      rw [Join_cons_cons]
      intro h
      rcases List.mem_append.mp h with h | h
      · rcases List.mem_append.mp h with h | h
        · exact Or.inr ⟨p, by simp, h⟩
        · exact Or.inl h
      · rcases ih h with h | ⟨q, hq, hc⟩
        · exact Or.inl h
        · exact Or.inr ⟨q, List.mem_cons_of_mem _ hq, hc⟩

theorem Join_ne_nil (p : GoString) (ps : List GoString) (sep : GoString) (hp : p ≠ []) :
    Join (p :: ps) sep ≠ [] := by
  rw [Join_cons]
  simp [hp]

set_option maxRecDepth 1000000 in
/-- The decimal rendering of a byte is read back by the reference decimal reading. -/
theorem formatDecimal_valid :
    ∀ n, n < 256 → validToken (formatDecimal n) ∧ decimalValue (formatDecimal n) = n := by
  decide

/-- Claim C4: for every list of option codes (each at most 255, duplicates allowed, the
empty list included), `Set` on a fresh value with the comma-joined decimal renderings
of the codes succeeds and `GetOptionCodesValue` then returns exactly that list; in
particular `Set` of the decimal rendering of one code `n` leaves `[n]`. -/
theorem Set_roundtrip :
    (∀ cs : List Nat, (∀ c ∈ cs, c ≤ 255) →
      (NewOptionCodeSliceValue.Set (Join (cs.map formatDecimal) (bytes ","))).2 = none ∧
      GetOptionCodesValue (.optionCodeSlice
        (NewOptionCodeSliceValue.Set (Join (cs.map formatDecimal) (bytes ","))).1) =
          (cs, none)) ∧
    (∀ n : Nat, n ≤ 255 →
      NewOptionCodeSliceValue.Set (formatDecimal n) = (⟨[n], true⟩, none)) := by
  have hsep : bytes "," = [44] := by decide
  have main : ∀ cs : List Nat, (∀ c ∈ cs, c ≤ 255) →
      NewOptionCodeSliceValue.Set (Join (cs.map formatDecimal) (bytes ",")) =
        (⟨cs, true⟩, none) := by
    intro cs hcs
    cases cs with
    | nil => decide
    | cons c cs =>
      have hvalid : ∀ p ∈ (c :: cs).map formatDecimal, validToken p := by
        intro p hp
        obtain ⟨x, hx, rfl⟩ := List.mem_map.mp hp
        exact (formatDecimal_valid x (by have := hcs x hx; omega)).1
      have hnot : ∀ (k : Nat), ¬ (48 ≤ k ∧ k ≤ 57) → ∀ p ∈ (c :: cs).map formatDecimal, k ∉ p :=
        fun k hk p hp hmem => hk ((hvalid p hp).2.1 k hmem)
      have hne : Join ((c :: cs).map formatDecimal) (bytes ",") ≠ [] := by
        rw [List.map_cons]
        exact Join_ne_nil _ _ _ (formatDecimal_valid c (by have := hcs c (by simp); omega)).1.1
      have hplain : plain (Join ((c :: cs).map formatDecimal) (bytes ",")) := by
        rw [hsep]
        refine ⟨?_, ?_, ?_⟩ <;> intro hmem <;>
          rcases mem_Join _ _ _ hmem with h | ⟨p, hp, hc⟩
        · simp at h
        · exact hnot 34 (by omega) p hp hc
        · simp at h
        · exact hnot 13 (by omega) p hp hc
        · simp at h
        · exact hnot 10 (by omega) p hp hc
      have hcsv := readAsCSV_plain _ hne hplain
      have hsplit : splitComma (Join ((c :: cs).map formatDecimal) (bytes ",")) =
          (c :: cs).map formatDecimal := by
        rw [hsep]
        exact splitComma_Join _ (by simp) (hnot 44 (by omega))
      rw [hsplit] at hcsv
      have hloop := Set.loop_valid _ [] hvalid
      have hvals : ((c :: cs).map formatDecimal).map decimalValue = c :: cs := by
        rw [List.map_map]
        conv_rhs => rw [← List.map_id (c :: cs)]
        apply List.map_congr_left
        intro x hx
        exact (formatDecimal_valid x (by have := hcs x hx; omega)).2
      rw [List.nil_append, hvals] at hloop
      rw [Set_of_ok _ _ (by rw [hcsv]) (by rw [hcsv, hloop]), hcsv, hloop]
      simp [NewOptionCodeSliceValue]
  refine ⟨fun cs hcs => ?_, fun n hn => ?_⟩
  · rw [main cs hcs]
    exact ⟨rfl, rfl⟩
  · have := main [n] (by simpa using hn)
    simpa [Join] using this

/-- Witness of C4 at the codes `[1, 3, 3, 255, 0]` and at the single code `12`. -/
theorem Set_roundtrip_witness :
    GetOptionCodesValue (.optionCodeSlice
      (NewOptionCodeSliceValue.Set (Join ([1, 3, 3, 255, 0].map formatDecimal) (bytes ","))).1) =
        ([1, 3, 3, 255, 0], none) ∧
    NewOptionCodeSliceValue.Set (formatDecimal 12) = (⟨[12], true⟩, none) :=
  ⟨(Set_roundtrip.1 [1, 3, 3, 255, 0] (by decide)).2, Set_roundtrip.2 12 (by decide)⟩
theorem take_set_self (l : List GoString) (i : Nat) (a : GoString) :
    (l.set i a).take i = l.take i := by
  induction l generalizing i with
  | nil => simp
  | cons x xs ih =>
    cases i with
    | zero => simp
    | succ i => simp [ih]

theorem String.loop_eq (table : Nat → Option GoString) : ∀ (os : List Nat) (i : Nat)
    (out : List GoString), i + os.length ≤ out.length →
    String.loop table os i out =
      out.take i ++ os.map (render table) ++ out.drop (i + os.length) := by
  intro os
  induction os with
  | nil => intro i out _; simp [String.loop]
  | cons o os ih =>
    intro i out h
    simp only [List.length_cons] at h
    have step : String.loop table (o :: os) i out =
        String.loop table os (i + 1) (out.set i (render table o)) := by
      rw [String.loop, render]
      cases table o <;> rfl
    have hlt : i < out.length := by omega
    rw [step, ih _ _ (by simp; omega)]
    have h1 : (out.set i (render table o)).take (i + 1) = out.take i ++ [render table o] := by
      rw [List.take_succ, take_set_self]
      simp [hlt]
    have h2 : (out.set i (render table o)).drop (i + 1 + os.length) =
        out.drop (i + (os.length + 1)) := by
      rw [List.drop_set_of_lt _ _ (by omega)]
      congr 1; omega
    rw [h1, h2]
    simp

/-- Claim C7: for every accumulated sequence and every name table, `String` is `[`, then
the comma-joined renderings of the codes in order (the name of a code the table names,
else `Unknown(` decimal code `)`), then `]`; the empty sequence renders as `[]`, and
with 1 named `A` and 255 unnamed `[1,255]` renders as `[A,Unknown(255)]`. -/
theorem String_renders :
    (∀ (table : Nat → Option GoString) (s : optionCodeSliceValue),
      s.String table =
        bytes "[" ++ (bytes ",").intercalate (s.value.map (render table)) ++ bytes "]") ∧
    (∀ (table : Nat → Option GoString) (b : Bool),
      optionCodeSliceValue.String table ⟨[], b⟩ = bytes "[]") ∧
    (∀ (table : Nat → Option GoString) (b : Bool),
      table 1 = some (bytes "A") → table 255 = none →
      optionCodeSliceValue.String table ⟨[1, 255], b⟩ = bytes "[A,Unknown(255)]") := by
  have main : ∀ (table : Nat → Option GoString) (s : optionCodeSliceValue),
      s.String table =
        bytes "[" ++ (bytes ",").intercalate (s.value.map (render table)) ++ bytes "]" := by
    intro table s
    unfold optionCodeSliceValue.String
    simp only
    rw [String.loop_eq table s.value 0 _ (by simp), Join_eq_intercalate]
    simp
  refine ⟨main, fun table b => ?_, fun table b h1 h255 => ?_⟩
  · rw [main]; simp only [List.map_nil]; decide
  · rw [main]
    simp only [List.map_cons, List.map_nil, render, h1, h255]
    decide

/-- Witness of C7 with the table that names only the code 1, as `A`. -/
theorem String_renders_witness :
    (tableA 1 = some (bytes "A") ∧ tableA 255 = none) ∧
    optionCodeSliceValue.String tableA ⟨[1, 255], true⟩ = bytes "[A,Unknown(255)]" :=
  ⟨⟨by decide, by decide⟩, String_renders.2.2 tableA true (by decide) (by decide)⟩

/-- Claim C8: `GetOptionCodes` returns an error exactly when no flag of that name is
registered or the registered value is not an `optionCodeSliceValue`; in the remaining
case it returns, without error, the sequence that value has accumulated, the same
result as `GetOptionCodesValue` on it. -/
theorem GetOptionCodes_error_iff (f : FlagSet) (name : GoString) :
    ((GetOptionCodes f name).2 ≠ none ↔
      (f.Lookup name = none ∨
        ∃ flag, f.Lookup name = some flag ∧ ∀ s, flag.Value ≠ .optionCodeSlice s)) ∧
    (∀ flag s, f.Lookup name = some flag → flag.Value = .optionCodeSlice s →
      GetOptionCodes f name = (s.value, none) ∧
      GetOptionCodes f name = GetOptionCodesValue (.optionCodeSlice s)) := by
  unfold GetOptionCodes
  cases hl : f.Lookup name with
  | none => simp
  | some flag =>
    cases hv : flag.Value with
    | optionCodeSlice s =>
      simp only [GetOptionCodesValue, hv]
      refine ⟨?_, ?_⟩
      · simp only [ne_eq, not_true_eq_false, reduceCtorEq, false_or, false_iff, not_exists,
          not_and, not_forall, not_not]
        intro flag2 h1
        cases h1
        exact ⟨s, hv⟩
      · intro flag2 s2 h1 h2
        cases h1
        rw [hv] at h2
        cases h2
        exact ⟨rfl, rfl⟩
    | other t =>
      simp only [GetOptionCodesValue, hv]
      refine ⟨?_, ?_⟩
      · simp [hv]
      · intro flag2 s2 h1 h2
        cases h1
        rw [hv] at h2
        cases h2

/-- Witness of C8 on the sample flag set: the flag `options` yields its codes, the flag
`count` of another type and the missing flag `x` yield errors. -/
theorem GetOptionCodes_error_iff_witness :
    GetOptionCodes sampleFlagSet (bytes "options") = ([1, 2], none) ∧
    (GetOptionCodes sampleFlagSet (bytes "count")).2 ≠ none ∧
    (GetOptionCodes sampleFlagSet (bytes "x")).2 ≠ none :=
  ⟨((GetOptionCodes_error_iff sampleFlagSet (bytes "options")).2
      ⟨bytes "options", .optionCodeSlice ⟨[1, 2], true⟩⟩ ⟨[1, 2], true⟩
      (by decide) rfl).1,
   (GetOptionCodes_error_iff sampleFlagSet (bytes "count")).1.mpr
      (Or.inr ⟨⟨bytes "count", .other (bytes "int")⟩, by decide, fun s h => by cases h⟩),
   (GetOptionCodes_error_iff sampleFlagSet (bytes "x")).1.mpr (Or.inl (by decide))⟩
/-! ## Lemmas: the first line of an input -/

theorem readSlice_append (x : GoString) (q : Nat) (y : GoString) (hx : 10 ∉ x) (hq : q ≠ 10) :
    readSlice (x ++ q :: y) =
      (x ++ q :: (readSlice y).1, (readSlice y).2.1, (readSlice y).2.2) := by
  induction x with
  | nil => simp [readSlice, hq]
  | cons c cs ih =>
    have hc : c ≠ 10 := fun e => hx (by simp [e])
    have hcs : 10 ∉ cs := fun e => hx (List.mem_cons_of_mem _ e)
    simp [readSlice, hc, ih hcs]

theorem readSlice_mem (l : GoString) (c : Nat) :
    (c ∈ (readSlice l).1 → c ∈ l) ∧ (c ∈ (readSlice l).2.2 → c ∈ l) := by
  induction l with
  | nil => simp [readSlice]
  | cons b bs ih =>
    by_cases hb : b = 10
    · subst hb
      simp only [readSlice, if_true, List.mem_cons]
      exact ⟨fun h => h.elim Or.inl (fun h2 => by simp at h2), Or.inr⟩
    · simp only [readSlice, hb, if_false, List.mem_cons]
      exact ⟨fun h => h.imp id ih.1, fun h => Or.inr (ih.2 h)⟩

theorem list_end_cases (w : GoString) :
    w = [] ∨ (∃ z, w = [z]) ∨ ∃ p u v, w = p ++ [u, v] := by
  induction w using List.reverseRecOn with
  | nil => exact Or.inl rfl
  | append_singleton p v _ =>
    induction p using List.reverseRecOn with
    | nil => exact Or.inr (Or.inl ⟨v, rfl⟩)
    | append_singleton p u _ => exact Or.inr (Or.inr ⟨p, u, v, by simp⟩)

theorem get_two_before_end (p : GoString) (u v : Nat) :
    (p ++ [u, v]).get? ((p ++ [u, v]).length - 2) = some u ∧
    (p ++ [u, v]).get? ((p ++ [u, v]).length - 1) = some v ∧
    (p ++ [u, v]).take ((p ++ [u, v]).length - 2) = p := by
  have h1 : (p ++ [u, v]).length - 2 = p.length := by simp
  have h2 : (p ++ [u, v]).length - 1 = p.length + 1 := by simp
  refine ⟨?_, ?_, ?_⟩
  · rw [h1, List.get?_eq_getElem?, List.getElem?_append_right (Nat.le_refl _)]
    simp
  · rw [h2, List.get?_eq_getElem?, List.getElem?_append_right (Nat.le_succ _)]
    simp
  · rw [h1]; simp

/-- The last step of `readLine`, the CR LF normalisation, keeps a prefix that ends in a
byte other than CR and LF. -/
theorem normalize_prefix (x : GoString) (q : Nat) (w : GoString) (h10 : q ≠ 10)
    (h13 : q ≠ 13) :
    ∃ w2, (if (x ++ q :: w).length ≥ 2 ∧
          (x ++ q :: w).get? ((x ++ q :: w).length - 2) = some 13 ∧
          (x ++ q :: w).get? ((x ++ q :: w).length - 1) = some 10
        then (x ++ q :: w).take ((x ++ q :: w).length - 2) ++ [10] else x ++ q :: w) =
        x ++ q :: w2 ∧ (∀ c ∈ w2, c ∈ w) ∧ w2.length ≤ w.length := by
  rcases list_end_cases w with rfl | ⟨z, rfl⟩ | ⟨p, u, v, rfl⟩
  · refine ⟨[], ?_, by simp, by simp⟩
    have : (x ++ [q]).get? ((x ++ [q]).length - 1) = some q := by simp
    rw [if_neg]
    rw [this]
    simp [h10]
  · refine ⟨[z], ?_, by simp, by simp⟩
    have hx : x ++ [q, z] = x ++ q :: [z] := rfl
    rw [if_neg]
    rw [← hx, (get_two_before_end x q z).1]
    simp [h13]
  · have hx : x ++ q :: (p ++ [u, v]) = (x ++ q :: p) ++ [u, v] := by simp
    rw [hx]
    obtain ⟨e1, e2, e3⟩ := get_two_before_end (x ++ q :: p) u v
    rw [e1, e2, e3]
    have hlen2 : (x ++ q :: p ++ [u, v]).length ≥ 2 := by simp; omega
    by_cases hc : u = 13 ∧ v = 10
    · refine ⟨p ++ [10], ?_, ?_, by simp⟩
      · rw [if_pos ⟨hlen2, by rw [hc.1], by rw [hc.2]⟩]
        simp
      · intro c hcm
        rcases List.mem_append.mp hcm with h | h
        · simp [h]
        · simp at h; simp [h, hc.2]
    · refine ⟨p ++ [u, v], ?_, fun c h => h, Nat.le_refl _⟩
      rw [if_neg]
      · simp
      · intro h
        exact hc ⟨by simpa using h.2.1, by simpa using h.2.2⟩

/-- The line that `readLine` returns keeps every byte of the input up to and including
the first byte `q` that follows a prefix without line feed, `q` being neither a carriage
return nor a line feed; and it returns no error. -/
theorem readLine_prefix (x : GoString) (q : Nat) (y : GoString) (hx : 10 ∉ x)
    (h10 : q ≠ 10) (h13 : q ≠ 13) :
    ∃ y2 rest, readLine (x ++ q :: y) = (x ++ q :: y2, none, rest) ∧
      (∀ c ∈ y2, c ∈ y) ∧ (∀ c ∈ rest, c ∈ y) ∧ y2.length + rest.length ≤ y.length := by
  have hslice := readSlice_append x q y hx h10
  have hlen := readSlice_length y
  have hmem := fun c => readSlice_mem y c
  have herr := readSlice_err y
  -- the line after the trailing carriage return has been dropped
  have hdrop : ∃ w, (if (x ++ q :: (readSlice y).1).length > 0 ∧ (readSlice y).2.1 = some .EOF
        then ((if (x ++ q :: (readSlice y).1).getLast? = some 13
            then (x ++ q :: (readSlice y).1).dropLast else x ++ q :: (readSlice y).1),
          (none : Option ReadErr))
        else (x ++ q :: (readSlice y).1, (readSlice y).2.1)) = (x ++ q :: w, none) ∧
      (∀ c ∈ w, c ∈ (readSlice y).1) ∧ w.length ≤ (readSlice y).1.length := by
    by_cases heof : (readSlice y).2.1 = some .EOF
    · have hpos : (x ++ q :: (readSlice y).1).length > 0 := by simp
      rw [if_pos ⟨hpos, heof⟩]
      by_cases hlast : (x ++ q :: (readSlice y).1).getLast? = some 13
      · rw [if_pos hlast]
        rcases List.eq_nil_or_concat (readSlice y).1 with hnil | ⟨p, z, hp⟩
        · rw [hnil] at hlast
          simp at hlast
          exact absurd hlast h13
        · refine ⟨p, ?_, ?_, ?_⟩
          · rw [hp, List.concat_eq_append]
            have : x ++ q :: (p ++ [z]) = (x ++ q :: p) ++ [z] := by simp
            rw [this, List.dropLast_concat]
          · intro c hc; rw [hp]; simp [hc]
          · rw [hp]; simp
      · rw [if_neg hlast]
        exact ⟨_, rfl, fun c hc => hc, Nat.le_refl _⟩
    · have hnone : (readSlice y).2.1 = none := by
        rcases herr with h | h
        · exact h
        · exact absurd h heof
      rw [if_neg (fun h => heof h.2), hnone]
      exact ⟨_, rfl, fun c hc => hc, Nat.le_refl _⟩
  obtain ⟨w, hw, hwmem, hwlen⟩ := hdrop
  obtain ⟨w2, hw2, hw2mem, hw2len⟩ := normalize_prefix x q w h10 h13
  refine ⟨w2, (readSlice y).2.2, ?_, fun c hc => (hmem c).1 (hwmem c (hw2mem c hc)),
    fun c hc => (hmem c).2 hc, by omega⟩
  unfold readLine
  simp only [hslice]
  rw [hw]
  simp only
  rw [hw2]
theorem mem_of_mem_normalize (line : GoString) (c : Nat)
    (h : c ∈ (if line.length ≥ 2 ∧ line.get? (line.length - 2) = some 13 ∧
          line.get? (line.length - 1) = some 10
        then line.take (line.length - 2) ++ [10] else line)) : c ∈ line := by
  by_cases hc : line.length ≥ 2 ∧ line.get? (line.length - 2) = some 13 ∧
      line.get? (line.length - 1) = some 10
  · rw [if_pos hc] at h
    rcases List.mem_append.mp h with h | h
    · exact List.mem_of_mem_take h
    · rw [List.mem_singleton] at h
      rw [h]
      exact List.get?_mem hc.2.2
  · rw [if_neg hc] at h
    exact h

theorem readLine_mem (l : GoString) (c : Nat) :
    (c ∈ (readLine l).1 → c ∈ l) ∧ (c ∈ (readLine l).2.2 → c ∈ l) := by
  refine ⟨fun h => (readSlice_mem l c).1 ?_, (readSlice_mem l c).2⟩
  unfold readLine at h
  dsimp only at h
  have h1 := mem_of_mem_normalize _ c h
  by_cases hc : (readSlice l).1.length > 0 ∧ (readSlice l).2.1 = some ReadErr.EOF
  · rw [if_pos hc] at h1
    dsimp only at h1
    by_cases hl : (readSlice l).1.getLast? = some 13
    · rw [if_pos hl] at h1
      exact List.mem_of_mem_dropLast h1
    · rw [if_neg hl] at h1
      exact h1
  · rw [if_neg hc] at h1
    exact h1

/-! ## Lemmas: strings whose quotes are all doubled -/

theorem quotesPaired_cons_of_ne (c : Nat) (l : GoString) (hc : c ≠ 34) :
    quotesPaired (c :: l) = quotesPaired l := by
  cases l with
  | nil => simp [quotesPaired, hc]
  | cons d r => simp [quotesPaired, hc]

theorem quotesPaired_quote_quote (l : GoString) :
    quotesPaired (34 :: 34 :: l) = quotesPaired l := by
  simp [quotesPaired]

theorem quotesPaired_quote (l : GoString) (h : quotesPaired (34 :: l) = true) :
    ∃ r, l = 34 :: r ∧ quotesPaired r = true := by
  cases l with
  | nil => simp [quotesPaired] at h
  | cons d r =>
    simp only [quotesPaired, if_true, Bool.and_eq_true, decide_eq_true_eq] at h
    exact ⟨r, by rw [h.1], h.2⟩

theorem quotesPaired_of_not_mem (l : GoString) (h : 34 ∉ l) : quotesPaired l = true := by
  induction l with
  | nil => rfl
  | cons c cs ih =>
    have hc : c ≠ 34 := fun e => h (by simp [e])
    rw [quotesPaired_cons_of_ne c cs hc]
    exact ih (fun e => h (List.mem_cons_of_mem _ e))

theorem quotesPaired_append_of_not_mem (x y : GoString) (hx : 34 ∉ x) :
    quotesPaired (x ++ y) = quotesPaired y := by
  induction x with
  | nil => rfl
  | cons c cs ih =>
    have hc : c ≠ 34 := fun e => hx (by simp [e])
    rw [List.cons_append, quotesPaired_cons_of_ne _ _ hc]
    exact ih (fun e => hx (List.mem_cons_of_mem _ e))

/-- Cutting at a byte that is not a double quote keeps the quotes doubled on both
sides, and so does gluing. -/
theorem quotesPaired_append_cons : ∀ (n : Nat) (x : GoString) (c : Nat) (y : GoString),
    x.length ≤ n → c ≠ 34 →
    quotesPaired (x ++ c :: y) = (quotesPaired x && quotesPaired y) := by
  intro n
  induction n using Nat.strong_induction_on with
  | _ n ih =>
    intro x c y hlen hc
    match x with
    | [] => simp [quotesPaired_cons_of_ne c y hc, quotesPaired]
    | [a] =>
      by_cases ha : a = 34
      · subst ha
        cases y <;> simp [quotesPaired, hc]
      · rw [List.singleton_append, quotesPaired_cons_of_ne _ _ ha,
          quotesPaired_cons_of_ne _ _ hc]
        simp [quotesPaired, ha]
    | a :: b :: r =>
      simp only [List.length_cons] at hlen
      by_cases ha : a = 34
      · subst ha
        by_cases hb : b = 34
        · subst hb
          rw [List.cons_append, List.cons_append, quotesPaired_quote_quote,
            quotesPaired_quote_quote]
          exact ih r.length (by omega) r c y (Nat.le_refl _) hc
        · simp [quotesPaired, hb]
      · rw [List.cons_append, quotesPaired_cons_of_ne _ _ ha, quotesPaired_cons_of_ne _ _ ha]
        exact ih (r.length + 1) (by omega) (b :: r) c y (by simp) hc

theorem quotesPaired_split (x : GoString) (c : Nat) (y : GoString) (hc : c ≠ 34)
    (h : quotesPaired (x ++ c :: y) = true) : quotesPaired x = true ∧ quotesPaired y = true := by
  rw [quotesPaired_append_cons x.length x c y (Nat.le_refl _) hc] at h
  simpa using h

theorem quotesPaired_glue (x : GoString) (c : Nat) (y : GoString) (hc : c ≠ 34)
    (hx : quotesPaired x = true) (hy : quotesPaired y = true) :
    quotesPaired (x ++ c :: y) = true := by
  rw [quotesPaired_append_cons x.length x c y (Nat.le_refl _) hc, hx, hy]
  rfl

theorem readSlice_cases (l : GoString) :
    (10 ∉ l ∧ readSlice l = (l, some .EOF, [])) ∨
    ∃ x rest, 10 ∉ x ∧ l = x ++ 10 :: rest ∧ readSlice l = (x ++ [10], none, rest) := by
  induction l with
  | nil => exact Or.inl ⟨by simp, rfl⟩
  | cons c cs ih =>
    by_cases hc : c = 10
    · subst hc
      exact Or.inr ⟨[], cs, by simp, rfl, by simp [readSlice]⟩
    · rcases ih with ⟨h10, hr⟩ | ⟨x, rest, hx, hl, hr⟩
      · refine Or.inl ⟨?_, by simp [readSlice, hc, hr]⟩
        intro h
        rcases List.mem_cons.mp h with h | h
        · exact hc h.symm
        · exact h10 h
      · refine Or.inr ⟨c :: x, rest, ?_, by rw [hl]; rfl, by simp [readSlice, hc, hr]⟩
        intro h
        rcases List.mem_cons.mp h with h | h
        · exact hc h.symm
        · exact hx h

theorem readSlice_quotesPaired (l : GoString) (h : quotesPaired l = true) :
    quotesPaired (readSlice l).1 = true ∧ quotesPaired (readSlice l).2.2 = true := by
  rcases readSlice_cases l with ⟨_, hr⟩ | ⟨x, rest, _, hl, hr⟩
  · rw [hr]; exact ⟨h, rfl⟩
  · rw [hr]
    rw [hl] at h
    obtain ⟨hx, hrest⟩ := quotesPaired_split x 10 rest (by decide) h
    exact ⟨quotesPaired_glue x 10 [] (by decide) hx rfl, hrest⟩

theorem quotesPaired_dropCR (line : GoString) (h : quotesPaired line = true) :
    quotesPaired (if line.getLast? = some 13 then line.dropLast else line) = true := by
  by_cases hl : line.getLast? = some 13
  · rw [if_pos hl]
    rcases List.eq_nil_or_concat line with hnil | ⟨p, z, hp⟩
    · rw [hnil]; rfl
    · rw [hp, List.concat_eq_append] at hl h ⊢
      rw [List.dropLast_concat]
      exact (quotesPaired_split p z [] (by simp at hl; omega) h).1
  · rw [if_neg hl]; exact h

theorem quotesPaired_normalize (line : GoString) (h : quotesPaired line = true) :
    quotesPaired (if line.length ≥ 2 ∧ line.get? (line.length - 2) = some 13 ∧
          line.get? (line.length - 1) = some 10
        then line.take (line.length - 2) ++ [10] else line) = true := by
  by_cases hc : line.length ≥ 2 ∧ line.get? (line.length - 2) = some 13 ∧
      line.get? (line.length - 1) = some 10
  · rw [if_pos hc]
    rcases list_end_cases line with rfl | ⟨z, rfl⟩ | ⟨p, u, v, rfl⟩
    · simp at hc
    · simp at hc
    · obtain ⟨_, _, e3⟩ := get_two_before_end p u v
      rw [e3]
      have hu : u ≠ 34 := by
        have := (get_two_before_end p u v).1
        rw [hc.2.1] at this
        simp at this
        omega
      exact quotesPaired_glue p 10 [] (by decide) (quotesPaired_split p u [v] hu h).1 rfl
  · rw [if_neg hc]; exact h

/-- The line and the rest that `readLine` returns keep the quotes doubled. -/
theorem readLine_quotesPaired (l : GoString) (h : quotesPaired l = true) :
    quotesPaired (readLine l).1 = true ∧ quotesPaired (readLine l).2.2 = true := by
  obtain ⟨h1, h2⟩ := readSlice_quotesPaired l h
  refine ⟨?_, h2⟩
  unfold readLine
  dsimp only
  apply quotesPaired_normalize
  by_cases hc : (readSlice l).1.length > 0 ∧ (readSlice l).2.1 = some ReadErr.EOF
  · rw [if_pos hc]
    exact quotesPaired_dropCR _ h1
  · rw [if_neg hc]
    exact h1
theorem normalize_cons (q : Nat) (m : GoString) (h13 : q ≠ 13) :
    (if (q :: m).length ≥ 2 ∧ (q :: m).get? ((q :: m).length - 2) = some 13 ∧
          (q :: m).get? ((q :: m).length - 1) = some 10
        then (q :: m).take ((q :: m).length - 2) ++ [10] else q :: m) =
      q :: (if m.length ≥ 2 ∧ m.get? (m.length - 2) = some 13 ∧
          m.get? (m.length - 1) = some 10
        then m.take (m.length - 2) ++ [10] else m) := by
  rcases list_end_cases m with rfl | ⟨z, rfl⟩ | ⟨p, u, v, rfl⟩
  · simp
  · simp [h13]
  · have hx : q :: (p ++ [u, v]) = (q :: p) ++ [u, v] := rfl
    obtain ⟨a1, a2, a3⟩ := get_two_before_end (q :: p) u v
    obtain ⟨b1, b2, b3⟩ := get_two_before_end p u v
    rw [hx, a1, a2, a3, b1, b2, b3]
    have hl1 : ((q :: p) ++ [u, v]).length ≥ 2 := by simp
    have hl2 : (p ++ [u, v]).length ≥ 2 := by simp
    by_cases hc : u = 13 ∧ v = 10
    · rw [if_pos ⟨hl1, by rw [hc.1], by rw [hc.2]⟩, if_pos ⟨hl2, by rw [hc.1], by rw [hc.2]⟩]
      rfl
    · rw [if_neg, if_neg]
      · rfl
      · intro h; exact hc ⟨by simpa using h.2.1, by simpa using h.2.2⟩
      · intro h; exact hc ⟨by simpa using h.2.1, by simpa using h.2.2⟩

/-- A first byte that is neither a carriage return nor a line feed stays in front of
the line that `readLine` returns, and the rest of the line is read as if it stood
alone. -/
theorem readLine_cons (q : Nat) (y : GoString) (h10 : q ≠ 10) (h13 : q ≠ 13) :
    readLine (q :: y) = (q :: (readLine y).1, none, (readLine y).2.2) := by
  have herr := readSlice_err y
  have hslice : readSlice (q :: y) = (q :: (readSlice y).1, (readSlice y).2.1, (readSlice y).2.2) := by
    simp [readSlice, h10]
  have hdrop : (if (q :: (readSlice y).1).length > 0 ∧ (readSlice y).2.1 = some ReadErr.EOF
        then ((if (q :: (readSlice y).1).getLast? = some 13
            then (q :: (readSlice y).1).dropLast else q :: (readSlice y).1),
          (none : Option ReadErr))
        else (q :: (readSlice y).1, (readSlice y).2.1)) =
      (q :: (if (readSlice y).1.length > 0 ∧ (readSlice y).2.1 = some ReadErr.EOF
        then ((if (readSlice y).1.getLast? = some 13
            then (readSlice y).1.dropLast else (readSlice y).1), (none : Option ReadErr))
        else ((readSlice y).1, (readSlice y).2.1)).1, none) := by
    cases hL : (readSlice y).1 with
    | nil =>
      rcases herr with he | he <;> simp [he, h13]
    | cons a L =>
      rcases herr with he | he
      · simp [he]
      · simp only [he, List.length_cons, gt_iff_lt, Nat.zero_lt_succ, and_self, if_true]
        by_cases hl : (a :: L).getLast? = some 13
        · have hl2 : (q :: a :: L).getLast? = some 13 := by
            rw [List.getLast?_cons_cons]; exact hl
          rw [if_pos hl, if_pos hl2]
          simp
        · have hl2 : ¬ (q :: a :: L).getLast? = some 13 := by
            rw [List.getLast?_cons_cons]; exact hl
          rw [if_neg hl, if_neg hl2]
  unfold readLine
  simp only [hslice]
  rw [hdrop]
  simp only
  rw [normalize_cons q _ h13]

/-! ## Lemmas: quoted fields -/

/-- A quoted field that meets only doubled double quotes up to the end of the input
ends in `csv.ErrQuote`. -/
theorem parseQuoted_unclosed : ∀ (fuel : Nat) (line rest : GoString) (fields : List GoString)
    (cur : GoString), quotesPaired line = true → quotesPaired rest = true →
    line.length + rest.length < fuel →
    parseQuoted fuel line none rest fields cur = ⟨fields, some .ErrQuote, none⟩ := by
  intro fuel
  induction fuel with
  | zero => intro line rest fields cur _ _ h; omega
  | succ fuel ih =>
    intro line rest fields cur hl hr hlen
    cases hi : indexByte line 34 with
    | none =>
      by_cases hne : line = []
      · subst hne
        exact parseQuoted_abrupt _ _ _ _
      · rw [parseQuoted_nextLine _ _ _ _ _ hi hne]
        have hpos := List.length_pos.mpr hne
        have htot := readLine_total_le rest
        obtain ⟨h1, h2⟩ := readLine_quotesPaired rest hr
        exact ih _ _ _ _ h1 h2 (by omega)
    | some i =>
      obtain ⟨hsplit, hnot⟩ := indexByte_split _ _ _ hi
      have hlt := indexByte_lt _ _ _ hi
      rw [hsplit, quotesPaired_append_of_not_mem _ _ hnot] at hl
      obtain ⟨r, hr1, hr2⟩ := quotesPaired_quote _ hl
      rw [parseQuoted_doubled _ _ _ _ _ _ i hi (by rw [hr1]; rfl), hr1]
      apply ih _ _ _ _ hr2 hr
      have : r.length + 1 = (line.drop (i + 1)).length := by rw [hr1]; rfl
      simp at this
      simp
      omega

theorem parseQuoted_close_comma (fuel : Nat) (a t : GoString) (e : Option ReadErr)
    (rest : GoString) (fields : List GoString) (cur : GoString) (ha : 34 ∉ a) :
    parseQuoted (fuel + 1) (a ++ 34 :: 44 :: t) e rest fields cur =
      parseField fuel t e rest (fields ++ [cur ++ a]) := by
  have hi := indexByte_append_of_not_mem a (44 :: t) 34 ha
  rw [parseQuoted_comma _ _ _ _ _ _ a.length hi (by simp)]
  simp

theorem parseQuoted_close_end (fuel : Nat) (a : GoString) (e : Option ReadErr)
    (rest : GoString) (fields : List GoString) (cur : GoString) (ha : 34 ∉ a) :
    parseQuoted (fuel + 1) (a ++ [34]) e rest fields cur =
      ⟨fields ++ [cur ++ a], none, e⟩ := by
  have hi := indexByte_append_of_not_mem a [] 34 ha
  rw [parseQuoted_eol _ _ _ _ _ _ a.length hi (by simp) (by simp) (by simp [lengthNL])]
  simp

/-! ## Lemmas: a bare quote in an unquoted field -/

/-- When the first double quote of a line is neither at its start nor right after a
comma, the field loop ends in `csv.ErrBareQuote`. -/
theorem parseField_bare : ∀ (fuel : Nat) (x y : GoString) (e : Option ReadErr)
    (rest : GoString) (fields : List GoString), x ≠ [] → 34 ∉ x → 10 ∉ x →
    x.getLast? ≠ some 44 → (x ++ 34 :: y).length < fuel →
    (parseField fuel (x ++ 34 :: y) e rest fields).err = some .ErrBareQuote := by
  intro fuel
  induction fuel with
  | zero => intro x y e rest fields _ _ _ _ h; omega
  | succ fuel ih =>
    intro x y e rest fields hne h34 h10 hlast hlen
    have hq : (x ++ 34 :: y).head? ≠ some 34 := by
      cases x with
      | nil => exact absurd rfl hne
      | cons c cs =>
        intro h
        simp at h
        exact h34 (by simp [h])
    -- the quote is at index `x.length` of the line
    have hquote : ∀ k, x.length < k → 34 ∈ (x ++ 34 :: y).take k := by
      intro k hk
      rw [List.take_append_eq_append_take]
      apply List.mem_append_right
      obtain ⟨j, hj⟩ : ∃ j, k - x.length = j + 1 := ⟨k - x.length - 1, by omega⟩
      rw [hj]
      simp
    have hbare : ∀ k, x.length < k → ∃ j, indexByte ((x ++ 34 :: y).take k) 34 = some j := by
      intro k hk
      cases hi : indexByte ((x ++ 34 :: y).take k) 34 with
      | none => exact absurd (hquote k hk) ((indexByte_eq_none_iff _ _).mp hi)
      | some j => exact ⟨j, rfl⟩
    cases hi : indexByte (x ++ 34 :: y) 44 with
    | none =>
      have hk : x.length < (x ++ 34 :: y).length - lengthNL (x ++ 34 :: y) := by
        unfold lengthNL
        split_ifs with hnl
        · cases y with
          | nil => simp at hnl
          | cons c cs => simp
        · simp
      obtain ⟨j, hj⟩ := hbare _ hk
      rw [parseField_last_bare _ _ _ _ _ j hq hi hj]
    | some i =>
      obtain ⟨hsplit, hnot⟩ := indexByte_split _ _ _ hi
      by_cases hix : i < x.length
      · -- the comma lies before the quote: the field is clean, go on after the comma
        have htake : (x ++ 34 :: y).take i = x.take i := by
          rw [List.take_append_of_le_length (by omega)]
        have hdrop : (x ++ 34 :: y).drop (i + 1) = x.drop (i + 1) ++ 34 :: y := by
          rw [List.drop_append_of_le_length (by omega)]
        have hclean : indexByte ((x ++ 34 :: y).take i) 34 = none := by
          rw [htake]
          exact (indexByte_eq_none_iff _ _).mpr (fun h => h34 (List.mem_of_mem_take h))
        have hxne : x.drop (i + 1) ≠ [] := by
          intro hnil
          have hlen1 : x.length ≤ i + 1 := List.drop_eq_nil_iff.mp hnil
          have hxi : x.length = i + 1 := by omega
          -- then the comma would be the last byte of `x`
          apply hlast
          have hget : (x ++ 34 :: y).get? i = some 44 := by
            conv_lhs => rw [hsplit]
            have hl : ((x ++ 34 :: y).take i).length = i := by
              rw [List.length_take]; simp; omega
            rw [List.get?_eq_getElem?, List.getElem?_append_right (by omega)]
            simp [hl]
          rw [List.get?_eq_getElem?, List.getElem?_append_left hix] at hget
          rw [List.getLast?_eq_getElem?, hxi]
          simpa using hget
        have hlast2 : (x.drop (i + 1)).getLast? ≠ some 44 := by
          rw [List.getLast?_drop]
          simp only [hlast, ite_eq_left_iff, not_le, imp_false, not_lt, ne_eq]
          intro h
          split_ifs at h
          exact hlast h
        rw [parseField_comma _ _ _ _ _ i hq hi hclean, hdrop]
        apply ih _ _ _ _ _ hxne (fun h => h34 (List.mem_of_mem_drop h))
          (fun h => h10 (List.mem_of_mem_drop h)) hlast2
        simp at hlen ⊢
        omega
      · -- the comma lies after the quote: the field holds the quote
        have hne_i : i ≠ x.length := by
          intro heq
          have hget : (x ++ 34 :: y).get? i = some 44 := by
            conv_lhs => rw [hsplit]
            have hl : ((x ++ 34 :: y).take i).length = i := by
              rw [List.length_take]; simp; omega
            rw [List.get?_eq_getElem?, List.getElem?_append_right (by omega)]
            simp [hl]
          rw [heq, List.get?_eq_getElem?, List.getElem?_append_right (Nat.le_refl _)] at hget
          simp at hget
        obtain ⟨j, hj⟩ := hbare i (by omega)
        rw [parseField_comma_bare _ _ _ _ _ i j hq hi hj]
/-! ## Lemmas: the record of an input whose first line is known -/

theorem lengthNL_le_one (l : GoString) : lengthNL l ≤ 1 := by
  unfold lengthNL; split_ifs <;> omega

theorem length_ne_lengthNL (x : GoString) (q : Nat) (y : GoString) (hq : q ≠ 10) :
    (x ++ q :: y).length ≠ lengthNL (x ++ q :: y) := by
  intro h
  have h1 := lengthNL_le_one (x ++ q :: y)
  have hlen : (x ++ q :: y).length = x.length + (y.length + 1) := by simp
  have hx : x.length = 0 := by omega
  have hy : y.length = 0 := by omega
  rw [List.length_eq_zero] at hx hy
  subst hx hy
  simp [lengthNL, hq] at h

theorem skipEmptyLines_of_line (fuel : Nat) (input line rest : GoString)
    (h : readLine input = (line, none, rest)) (hlen : line.length ≠ lengthNL line) :
    skipEmptyLines (fuel + 1) input = (line, none, rest) := by
  rw [skipEmptyLines, h]
  simp [hlen]

theorem readRecord_of_line (fuel : Nat) (input line rest : GoString)
    (h : readLine input = (line, none, rest)) (hlen : line.length ≠ lengthNL line) :
    readRecord (fuel + 1) input =
      ((parseField (fuel + 1) line none rest []).fields,
        if (parseField (fuel + 1) line none rest []).err = none
          then (parseField (fuel + 1) line none rest []).errRead
          else (parseField (fuel + 1) line none rest []).err) := by
  unfold readRecord
  rw [skipEmptyLines_of_line fuel input line rest h hlen]
  simp

/-! ## Lemmas: quoted decimal tokens -/

theorem ParseUint.loop_append (s0 : GoString) : ∀ (a t : GoString) (n : Nat),
    (∀ c ∈ a, isDigit c) → decimalValueFrom n a ≤ 255 →
    ParseUint.loop s0 10 ((2 ^ 64 - 1) / 10 + 1) (2 ^ 8 - 1) (a ++ t) n =
      ParseUint.loop s0 10 ((2 ^ 64 - 1) / 10 + 1) (2 ^ 8 - 1) t (decimalValueFrom n a) := by
  intro a
  induction a with
  | nil => intro t n _ _; rfl
  | cons c cs ih =>
    intro t n hd hv
    have hc : 48 ≤ c ∧ c ≤ 57 := hd c (by simp)
    have hcs : ∀ c ∈ cs, isDigit c := fun x hx => hd x (List.mem_cons_of_mem _ hx)
    rw [decimalValueFrom_cons] at hv
    have h1 := le_decimalValueFrom cs (10 * n + (c - 48))
    have hmod1 : n * 10 % 2 ^ 64 = n * 10 := Nat.mod_eq_of_lt (by omega)
    have hmod2 : (n * 10 + (c - 48)) % 2 ^ 64 = n * 10 + (c - 48) := Nat.mod_eq_of_lt (by omega)
    have hd10 : ¬ (c - 48 ≥ 10) := by omega
    have hcut : ¬ (n ≥ (2 ^ 64 - 1) / 10 + 1) := by norm_num; omega
    have hbig : ¬ (n * 10 + (c - 48) < n * 10 ∨ n * 10 + (c - 48) > 2 ^ 8 - 1) := by
      norm_num; omega
    rw [List.cons_append, ParseUint.loop]
    simp only [hc, and_self, if_true, hd10, if_false, hcut, hmod1, hmod2, hbig]
    rw [ih t _ hcs (by rw [Nat.mul_comm]; exact hv), decimalValueFrom_cons, Nat.mul_comm]

/-- A valid token followed by a comma and anything else is a syntax error for
`ParseUint`. -/
theorem ParseUint_token_comma (a b : GoString) (ha : validToken a) :
    ParseUint (a ++ 44 :: b) = (0, some (syntaxError fnParseUint (a ++ 44 :: b))) := by
  obtain ⟨_, hd, hv⟩ := ha
  unfold ParseUint
  rw [if_neg (by simp)]
  simp only
  rw [ParseUint.loop_append _ a (44 :: b) 0 hd hv, ParseUint.loop]
  have : lower 44 = 44 := by decide
  simp [this]

theorem validToken_not_mem (a : GoString) (ha : validToken a) (c : Nat)
    (hc : ¬ (48 ≤ c ∧ c ≤ 57)) : c ∉ a := fun h => hc (ha.2.1 c h)

/-- Two quoted fields on one line. -/
theorem parseField_two_quoted (fuel : Nat) (a b : GoString) (e : Option ReadErr)
    (rest : GoString) (fields : List GoString) (ha : 34 ∉ a) (hb : 34 ∉ b) :
    parseField (fuel + 4) (34 :: (a ++ 34 :: 44 :: 34 :: (b ++ [34]))) e rest fields =
      ⟨fields ++ [a, b], none, e⟩ := by
  rw [parseField_quoted, parseQuoted_close_comma _ _ _ _ _ _ _ ha, parseField_quoted,
    parseQuoted_close_end _ _ _ _ _ _ hb]
  simp

/-- One quoted field on one line. -/
theorem parseField_one_quoted (fuel : Nat) (a : GoString) (e : Option ReadErr)
    (rest : GoString) (fields : List GoString) (ha : 34 ∉ a) :
    parseField (fuel + 2) (34 :: (a ++ [34])) e rest fields = ⟨fields ++ [a], none, e⟩ := by
  rw [parseField_quoted, parseQuoted_close_end _ _ _ _ _ _ ha]
  simp

/-- Claim C10: for all digit strings `a` and `b` of value at most 255, `Set` of the two
quoted fields `"a","b"` succeeds and returns what `Set` of the unquoted `a,b` returns,
whereas `Set` of the single quoted field `"a,b"` fails: the comma inside the quotes is
not a separator, and the one token `a,b` is a syntax error for `ParseUint`. -/
theorem Set_honours_quoting (s : optionCodeSliceValue) (a b : GoString)
    (ha : validToken a) (hb : validToken b) :
    s.Set (34 :: (a ++ 34 :: 44 :: 34 :: (b ++ [34]))) = s.Set (a ++ 44 :: b) ∧
    (s.Set (34 :: (a ++ 34 :: 44 :: 34 :: (b ++ [34])))).2 = none ∧
    (s.Set (34 :: (a ++ 34 :: 44 :: 34 :: (b ++ [34])))).1.value =
      (if s.changed then s.value else []) ++ [decimalValue a, decimalValue b] ∧
    s.Set (34 :: ((a ++ 44 :: b) ++ [34])) =
      (s, some (.num (syntaxError fnParseUint (a ++ 44 :: b)))) := by
  have hna : ∀ c, ¬ (48 ≤ c ∧ c ≤ 57) → c ∉ a := validToken_not_mem a ha
  have hnb : ∀ c, ¬ (48 ≤ c ∧ c ≤ 57) → c ∉ b := validToken_not_mem b hb
  have hvalid : ∀ v ∈ [a, b], validToken v := by
    intro v hv
    simp only [List.mem_cons, List.mem_singleton, List.not_mem_nil, or_false] at hv
    rcases hv with rfl | rfl
    · exact ha
    · exact hb
  have hloop := Set.loop_valid [a, b] [] hvalid
  -- the two quoted fields
  have hq : readAsCSV (34 :: (a ++ 34 :: 44 :: 34 :: (b ++ [34]))) = ([a, b], none) := by
    have h10 : 10 ∉ 34 :: (a ++ 34 :: 44 :: 34 :: (b ++ [34])) := by
      simp [hna 10 (by omega), hnb 10 (by omega)]
    have h13 : 13 ∉ 34 :: (a ++ 34 :: 44 :: 34 :: (b ++ [34])) := by
      simp [hna 13 (by omega), hnb 13 (by omega)]
    have hline := readLine_plain _ (by simp) h10 h13
    have hne := length_ne_lengthNL [] 34 (a ++ 34 :: 44 :: 34 :: (b ++ [34])) (by decide)
    simp only [List.nil_append] at hne
    obtain ⟨k, hk⟩ : ∃ k, (34 :: (a ++ 34 :: 44 :: 34 :: (b ++ [34]))).length = k + 4 :=
      ⟨a.length + b.length + 1, by simp; omega⟩
    unfold readAsCSV Reader.Read
    rw [if_neg (by simp), readRecord_of_line _ _ _ _ hline hne, hk,
      show k + 4 + 1 = (k + 1) + 4 by omega,
      parseField_two_quoted _ a b _ _ _ (hna 34 (by omega)) (hnb 34 (by omega))]
    simp
  -- the same tokens without quotes
  have hu : readAsCSV (a ++ 44 :: b) = ([a, b], none) := by
    have hp : plain (a ++ 44 :: b) := by
      refine ⟨?_, ?_, ?_⟩
      · simp [hna 34 (by omega), hnb 34 (by omega)]
      · simp [hna 13 (by omega), hnb 13 (by omega)]
      · simp [hna 10 (by omega), hnb 10 (by omega)]
    rw [readAsCSV_plain _ (by simp) hp, splitComma_append_comma _ _ (hna 44 (by omega)),
      splitComma_of_not_mem _ (hnb 44 (by omega))]
  -- one quoted field holding the comma
  have hone : readAsCSV (34 :: ((a ++ 44 :: b) ++ [34])) = ([a ++ 44 :: b], none) := by
    have h10 : 10 ∉ 34 :: ((a ++ 44 :: b) ++ [34]) := by
      simp [hna 10 (by omega), hnb 10 (by omega)]
    have h13 : 13 ∉ 34 :: ((a ++ 44 :: b) ++ [34]) := by
      simp [hna 13 (by omega), hnb 13 (by omega)]
    have h34 : 34 ∉ a ++ 44 :: b := by
      simp [hna 34 (by omega), hnb 34 (by omega)]
    have hline := readLine_plain _ (by simp) h10 h13
    have hne := length_ne_lengthNL [] 34 ((a ++ 44 :: b) ++ [34]) (by decide)
    simp only [List.nil_append] at hne
    obtain ⟨k, hk⟩ : ∃ k, (34 :: ((a ++ 44 :: b) ++ [34])).length = k + 2 :=
      ⟨a.length + b.length + 1, by simp; omega⟩
    unfold readAsCSV Reader.Read
    rw [if_neg (by simp), readRecord_of_line _ _ _ _ hline hne, hk,
      show k + 2 + 1 = (k + 1) + 2 by omega, parseField_one_quoted _ _ _ _ _ h34]
    simp
  have hset : s.Set (34 :: (a ++ 34 :: 44 :: 34 :: (b ++ [34]))) =
      (⟨if s.changed then s.value ++ [decimalValue a, decimalValue b]
        else [decimalValue a, decimalValue b], true⟩, none) := by
    rw [Set_of_ok s _ (by rw [hq]) (by rw [hq, hloop]), hq, hloop]
    simp
  refine ⟨?_, ?_, ?_, ?_⟩
  · rw [hset, Set_of_ok s _ (by rw [hu]) (by rw [hu, hloop]), hu, hloop]
    simp
  · rw [hset]
  · rw [hset]
    cases s.changed <;> simp
  · apply Set_of_loop_err s _ _ (by rw [hone])
    rw [hone]
    simp only [Set.loop, ParseUint_token_comma a b ha]

/-- Witness of C10 at `a = 7` and `b = 255` on a fresh value. -/
theorem Set_honours_quoting_witness :
    (validToken (bytes "7") ∧ validToken (bytes "255")) ∧
    NewOptionCodeSliceValue.Set (bytes "\"7\",\"255\"") =
      NewOptionCodeSliceValue.Set (bytes "7,255") ∧
    (NewOptionCodeSliceValue.Set (bytes "\"7\",\"255\"")).1.value = [7, 255] ∧
    NewOptionCodeSliceValue.Set (bytes "\"7,255\"") =
      (NewOptionCodeSliceValue, some (.num (syntaxError fnParseUint (bytes "7,255")))) :=
  have h := Set_honours_quoting NewOptionCodeSliceValue (bytes "7") (bytes "255")
    (by decide) (by decide)
  ⟨⟨by decide, by decide⟩, h.1, h.2.2.1, h.2.2.2⟩
/-! ## Theorems about the claims, continued -/

/-- The flag after a call of `Set`: it was true before, or the call succeeded. -/
theorem Set_changed (s : optionCodeSliceValue) (raw : GoString) :
    (s.Set raw).1.changed = true ↔ s.changed = true ∨ (s.Set raw).2 = none := by
  rcases Set_cases s raw with ⟨e, he⟩ | ⟨_, _, hok⟩
  · rw [he]; simp
  · rw [hok]; simp

theorem setAll_changed : ∀ (rs : List GoString) (s : optionCodeSliceValue),
    (setAll s rs).changed = true ↔ s.changed = true ∨ someSucceeds s rs := by
  intro rs
  induction rs with
  | nil => intro s; simp [setAll, someSucceeds]
  | cons r rs ih =>
    intro s
    rw [setAll, ih, Set_changed, someSucceeds]
    tauto

theorem Reachable.setAll {s : optionCodeSliceValue} (h : Reachable s) :
    ∀ rs : List GoString, Reachable (setAll s rs) := by
  intro rs
  induction rs generalizing s with
  | nil => exact h
  | cons r rs ih => exact ih (Reachable.set s r h)

/-- Claim C11: after any sequence of `Set` calls, successful or failing, on the value
made by `NewOptionCodeSliceValue`, a false flag comes with an empty sequence, the flag
is true exactly when at least one of the calls so far has succeeded, and no call of
`Set` turns a true flag back to false. -/
theorem changed_invariant :
    (∀ rs : List GoString,
      ((setAll NewOptionCodeSliceValue rs).changed = false →
        (setAll NewOptionCodeSliceValue rs).value = []) ∧
      ((setAll NewOptionCodeSliceValue rs).changed = true ↔
        someSucceeds NewOptionCodeSliceValue rs)) ∧
    (∀ (s : optionCodeSliceValue) (raw : GoString),
      s.changed = true → (s.Set raw).1.changed = true) := by
  refine ⟨fun rs => ⟨?_, ?_⟩, fun s raw h => ?_⟩
  · exact (Reachable.new.setAll rs).value_eq_nil
  · rw [setAll_changed]
    simp [NewOptionCodeSliceValue]
  · exact (Set_changed s raw).mpr (Or.inl h)

/-- Witness of C11: after the failing call `Set "x"` the flag is false and the
sequence empty; after `Set "x"`, `Set "1"`, `Set "y"` the flag is true. -/
theorem changed_invariant_witness :
    ((setAll NewOptionCodeSliceValue [bytes "x"]).changed = false ∧
      (setAll NewOptionCodeSliceValue [bytes "x"]).value = []) ∧
    (someSucceeds NewOptionCodeSliceValue [bytes "x", bytes "1", bytes "y"] ∧
      (setAll NewOptionCodeSliceValue [bytes "x", bytes "1", bytes "y"]).changed = true) :=
  ⟨⟨by decide, (changed_invariant.1 [bytes "x"]).1 (by decide)⟩,
   ⟨Or.inr (Or.inl (by decide)),
    (changed_invariant.1 [bytes "x", bytes "1", bytes "y"]).2.mpr
      (Or.inr (Or.inl (by decide)))⟩⟩

/-- Claim C13: in every state, fresh, after successful and after failed `Set` calls
alike, `Type` returns the fixed string `optionCodeSlice`. -/
theorem Type_constant :
    (∀ s : optionCodeSliceValue, s.Type_ = bytes "optionCodeSlice") ∧
    NewOptionCodeSliceValue.Type_ = bytes "optionCodeSlice" ∧
    (∀ rs : List GoString,
      (setAll NewOptionCodeSliceValue rs).Type_ = bytes "optionCodeSlice") :=
  ⟨fun _ => rfl, rfl, fun _ => rfl⟩
/-! ## Lemmas: the input carried by the errors of ParseUint -/

theorem ParseUint.loop_err_Num (s0 : GoString) (base cutoff maxVal : Nat) :
    ∀ (cs : GoString) (n : Nat) (e : NumError),
    (ParseUint.loop s0 base cutoff maxVal cs n).2 = some e →
    e.Num = s0 ∧ e.Func = fnParseUint := by
  intro cs
  induction cs with
  | nil => intro n e h; simp [ParseUint.loop] at h
  | cons c cs ih =>
    intro n e h
    rw [ParseUint.loop] at h
    dsimp only at h
    split at h
    · simp only [Option.some.injEq] at h
      subst h
      exact ⟨rfl, rfl⟩
    · split_ifs at h
      · simp only [Option.some.injEq] at h
        subst h
        exact ⟨rfl, rfl⟩
      · simp only [Option.some.injEq] at h
        subst h
        exact ⟨rfl, rfl⟩
      · simp only [Option.some.injEq] at h
        subst h
        exact ⟨rfl, rfl⟩
      · exact ih _ _ h

/-- An error of `ParseUint` carries the input string and the name `ParseUint`. -/
theorem ParseUint_err_Num (p : GoString) (e : NumError) (h : (ParseUint p).2 = some e) :
    e.Num = p ∧ e.Func = fnParseUint := by
  unfold ParseUint at h
  split_ifs at h with hp
  · simp only [Option.some.injEq] at h
    subst h
    exact ⟨rfl, rfl⟩
  · exact ParseUint.loop_err_Num _ _ _ _ _ _ _ h

theorem Set.loop_first_invalid (p : GoString) (post : List GoString) (e : NumError)
    (he : (ParseUint p).2 = some e) : ∀ (pre : List GoString) (acc : List Nat),
    (∀ q ∈ pre, validToken q) →
    (Set.loop (pre ++ p :: post) acc).2 = some (.num e) := by
  intro pre
  induction pre with
  | nil =>
    intro acc _
    rw [List.nil_append, Set.loop]
    rcases hpu : ParseUint p with ⟨n, err⟩
    rw [hpu] at he
    simp only at he
    subst he
    rfl
  | cons q qs ih =>
    intro acc h
    have hq : validToken q := h q (by simp)
    rw [List.cons_append, Set.loop, ParseUint_of_valid q hq]
    exact ih _ (fun x hx => h x (List.mem_cons_of_mem _ hx))

theorem exists_first_invalid : ∀ (l : List GoString), (∃ p ∈ l, ¬ validToken p) →
    ∃ pre p post, l = pre ++ p :: post ∧ (∀ q ∈ pre, validToken q) ∧ ¬ validToken p := by
  intro l
  induction l with
  | nil => rintro ⟨p, hp, _⟩; simp at hp
  | cons a l ih =>
    rintro ⟨p, hp, hbad⟩
    by_cases ha : validToken a
    · have : ∃ p ∈ l, ¬ validToken p := by
        rcases List.mem_cons.mp hp with rfl | hp
        · exact absurd ha hbad
        · exact ⟨p, hp, hbad⟩
      obtain ⟨pre, q, post, hl, hpre, hq⟩ := ih this
      refine ⟨a :: pre, q, post, by rw [hl]; rfl, ?_, hq⟩
      intro x hx
      rcases List.mem_cons.mp hx with rfl | hx
      · exact ha
      · exact hpre x hx
    · exact ⟨[], a, l, rfl, by simp, ha⟩

/-- Claim C12: for every non-empty raw string without double quote, carriage return or
line feed, when the pieces between the commas are valid up to a piece `p` that is not
a decimal integer in 0..255, `Set` returns a `strconv.NumError` of `ParseUint` whose
input `Num` is exactly `p`; and such a leftmost piece exists as soon as some piece is
not valid. -/
theorem Set_error_names_token (s : optionCodeSliceValue) (raw : GoString) (hne : raw ≠ [])
    (hp : plain raw) :
    (∀ (pre : List GoString) (p : GoString) (post : List GoString),
      splitComma raw = pre ++ p :: post → (∀ q ∈ pre, validToken q) → ¬ validToken p →
      ∃ e : NumError, s.Set raw = (s, some (.num e)) ∧ e.Num = p ∧ e.Func = fnParseUint) ∧
    ((∃ p ∈ splitComma raw, ¬ validToken p) →
      ∃ pre p post, splitComma raw = pre ++ p :: post ∧ (∀ q ∈ pre, validToken q) ∧
        ¬ validToken p) := by
  refine ⟨fun pre p post hsplit hpre hbad => ?_, exists_first_invalid _⟩
  have hcsv := readAsCSV_plain raw hne hp
  have herr : (ParseUint p).2 ≠ none := fun h => hbad ((ParseUint_err_eq_none_iff p).mp h)
  obtain ⟨e, he⟩ := Option.ne_none_iff_exists'.mp herr
  refine ⟨e, ?_, ParseUint_err_Num p e he⟩
  apply Set_of_loop_err s raw _ (by rw [hcsv])
  rw [hcsv]
  simp only
  rw [hsplit]
  exact Set.loop_first_invalid p post e he pre [] hpre

/-- Witness of C12 at the raw string `1,abc,256`: the error names `abc`. -/
theorem Set_error_names_token_witness :
    (bytes "1,abc,256" ≠ [] ∧ plain (bytes "1,abc,256") ∧
      splitComma (bytes "1,abc,256") = [bytes "1"] ++ bytes "abc" :: [bytes "256"] ∧
      (∀ q ∈ [bytes "1"], validToken q) ∧ ¬ validToken (bytes "abc")) ∧
    (∃ e : NumError,
      NewOptionCodeSliceValue.Set (bytes "1,abc,256") =
        (NewOptionCodeSliceValue, some (.num e)) ∧
      e.Num = bytes "abc" ∧ e.Func = fnParseUint) :=
  ⟨⟨by decide, by decide, by decide, by decide, by decide⟩,
   (Set_error_names_token NewOptionCodeSliceValue (bytes "1,abc,256") (by decide)
      (by decide)).1 [bytes "1"] (bytes "abc") [bytes "256"] (by decide) (by decide)
      (by decide)⟩
theorem call_read (table : Nat → Option GoString) (s : optionCodeSliceValue) (c : Call)
    (h : c.isRead = true) : (call table s c).1 = s := by
  cases c with
  | Set raw => simp [Call.isRead] at h
  | String => rfl
  | Type_ => rfl
  | Get => rfl

theorem runCalls_filter (table : Nat → Option GoString) : ∀ (cs : List Call)
    (s : optionCodeSliceValue),
    runCalls table s cs = runCalls table s (cs.filter (fun c => !c.isRead)) := by
  intro cs
  induction cs with
  | nil => intro s; rfl
  | cons c cs ih =>
    intro s
    by_cases hc : c.isRead = true
    · rw [runCalls, call_read table s c hc, List.filter_cons_of_neg (by simp [hc])]
      exact ih s
    · rw [runCalls, List.filter_cons_of_pos (by simpa using hc), runCalls]
      exact ih _

/-- Claim C14: `String`, `Type` and `GetOptionCodesValue` leave the sequence and the
flag as they were, in every state; so the state after any sequence of calls is the
state after its `Set` calls alone, and any later call, `Set` or read, returns the same
whether or not the reads were made in between. -/
theorem reads_leave_state (table : Nat → Option GoString) :
    (∀ (s : optionCodeSliceValue) (c : Call), c.isRead = true → (call table s c).1 = s) ∧
    (∀ s : optionCodeSliceValue,
      (call table s .String).1 = s ∧ (call table s .Type_).1 = s ∧
      (call table s .Get).1 = s) ∧
    (∀ (s : optionCodeSliceValue) (cs : List Call),
      runCalls table s cs = runCalls table s (cs.filter (fun c => !c.isRead))) ∧
    (∀ (s : optionCodeSliceValue) (cs : List Call) (c : Call),
      call table (runCalls table s cs) c =
        call table (runCalls table s (cs.filter (fun c => !c.isRead))) c) := by
  refine ⟨call_read table, fun s => ⟨rfl, rfl, rfl⟩, fun s cs => runCalls_filter table cs s,
    fun s cs c => ?_⟩
  rw [← runCalls_filter table cs s]

/-- Witness of C14 with the table that names only the code 1: after `Set "1,2"`, the
reads `String`, `Type` and `GetOptionCodesValue` in between change neither the state
nor what the later `Set "3"` returns. -/
theorem reads_leave_state_witness :
    (call tableA ⟨[1, 2], true⟩ .String).1 = ⟨[1, 2], true⟩ ∧
    runCalls tableA NewOptionCodeSliceValue
        [.Set (bytes "1,2"), .String, .Type_, .Get, .Set (bytes "3")] =
      runCalls tableA NewOptionCodeSliceValue [.Set (bytes "1,2"), .Set (bytes "3")] ∧
    runCalls tableA NewOptionCodeSliceValue
        [.Set (bytes "1,2"), .String, .Type_, .Get, .Set (bytes "3")] = ⟨[1, 2, 3], true⟩ :=
  ⟨(reads_leave_state tableA).1 ⟨[1, 2], true⟩ .String rfl,
   (reads_leave_state tableA).2.2.1 NewOptionCodeSliceValue
     [.Set (bytes "1,2"), .String, .Type_, .Get, .Set (bytes "3")],
   by decide⟩
/-! ## Lemmas: a first line that ends in a line feed -/

theorem readSlice_line_feed (a b : GoString) (h10 : 10 ∉ a) :
    readSlice (a ++ 10 :: b) = (a ++ [10], none, b) := by
  induction a with
  | nil => simp [readSlice]
  | cons c cs ih =>
    have hc : c ≠ 10 := fun e => h10 (by simp [e])
    have hcs : 10 ∉ cs := fun e => h10 (List.mem_cons_of_mem _ e)
    simp [readSlice, hc, ih hcs]

theorem readLine_line_feed (a b : GoString) (h10 : 10 ∉ a) (h13 : 13 ∉ a) :
    readLine (a ++ 10 :: b) = (a ++ [10], none, b) := by
  have hnorm : ¬ ((a ++ [10]).length ≥ 2 ∧
      (a ++ [10]).get? ((a ++ [10]).length - 2) = some 13 ∧
      (a ++ [10]).get? ((a ++ [10]).length - 1) = some 10) := by
    rcases List.eq_nil_or_concat a with rfl | ⟨p, z, rfl⟩
    · simp
    · have hz : z ≠ 13 := fun e => h13 (by simp [e])
      have hx : p.concat z ++ [10] = p ++ [z, 10] := by simp
      rw [hx, (get_two_before_end p z 10).1]
      simp [hz]
  have hc1 : ¬ ((a ++ [10]).length > 0 ∧ (none : Option ReadErr) = some ReadErr.EOF) := by
    simp
  unfold readLine
  simp only [readSlice_line_feed a b h10]
  rw [if_neg hc1]
  dsimp only
  rw [if_neg hnorm]

theorem lengthNL_append_line_feed (l : GoString) : lengthNL (l ++ [10]) = 1 := by
  simp [lengthNL]

/-- The field loop on a line without quotes that ends in a line feed returns the pieces
between the commas, the line feed left out. -/
theorem parseField_line : ∀ (fuel : Nat) (l : GoString) (e : Option ReadErr)
    (rest : GoString) (fields : List GoString), 34 ∉ l → 10 ∉ l → l.length < fuel →
    parseField fuel (l ++ [10]) e rest fields = ⟨fields ++ splitComma l, none, e⟩ := by
  intro fuel
  induction fuel with
  | zero => intro l e rest fields _ _ h; omega
  | succ fuel ih =>
    intro l e rest fields h34 h10 hlen
    have hq : (l ++ [10]).head? ≠ some 34 := by
      intro h
      have := List.mem_of_mem_head? h
      simp at this
      exact h34 this
    cases hi : indexByte l 44 with
    | none =>
      have h44 : 44 ∉ l := (indexByte_eq_none_iff _ _).mp hi
      have hi2 : indexByte (l ++ [10]) 44 = none :=
        (indexByte_eq_none_iff _ _).mpr (by simp [h44])
      have htake : (l ++ [10]).take ((l ++ [10]).length - lengthNL (l ++ [10])) = l := by
        rw [lengthNL_append_line_feed]; simp
      have hb : indexByte ((l ++ [10]).take ((l ++ [10]).length - lengthNL (l ++ [10]))) 34
          = none := by
        rw [htake]; exact (indexByte_eq_none_iff _ _).mpr h34
      rw [parseField_last _ _ _ _ _ hq hi2 hb, htake, splitComma_of_not_mem _ h44]
    | some i =>
      obtain ⟨hsplit, hnot⟩ := indexByte_split _ _ _ hi
      have hlt := indexByte_lt _ _ _ hi
      have hline : l ++ [10] = l.take i ++ 44 :: (l.drop (i + 1) ++ [10]) := by
        conv_lhs => rw [hsplit]
        simp
      have hlen_take : (l.take i).length = i := by rw [List.length_take]; omega
      have hi2 : indexByte (l ++ [10]) 44 = some i := by
        rw [hline, indexByte_append_of_not_mem _ _ _ hnot, hlen_take]
      have htake : (l ++ [10]).take i = l.take i := by
        rw [List.take_append_of_le_length (by omega)]
      have hdrop : (l ++ [10]).drop (i + 1) = l.drop (i + 1) ++ [10] := by
        rw [List.drop_append_of_le_length (by omega)]
      have hb : indexByte ((l ++ [10]).take i) 34 = none := by
        rw [htake]
        exact (indexByte_eq_none_iff _ _).mpr (fun h => h34 (List.mem_of_mem_take h))
      rw [parseField_comma _ _ _ _ _ i hq hi2 hb, htake, hdrop,
        ih _ _ _ _ (fun h => h34 (List.mem_of_mem_drop h))
          (fun h => h10 (List.mem_of_mem_drop h)) (by simp; omega)]
      conv_rhs => rw [hsplit, splitComma_append_comma _ _ hnot]
      simp

/-- After a non-empty first line without quotes and carriage returns, the reader
returns the pieces of that line whatever follows the line feed. -/
theorem readAsCSV_line_feed (a b : GoString) (hne : a ≠ []) (hp : plain a) :
    readAsCSV (a ++ 10 :: b) = (splitComma a, none) := by
  obtain ⟨h34, h13, h10⟩ := hp
  have hline := readLine_line_feed a b h10 h13
  have hnl : (a ++ [10]).length ≠ lengthNL (a ++ [10]) := by
    have := List.length_pos.mpr hne
    rw [lengthNL_append_line_feed, List.length_append, List.length_singleton]
    omega
  unfold readAsCSV Reader.Read
  rw [if_neg (by simp), readRecord_of_line _ _ _ _ hline hnl,
    parseField_line _ a none b [] h34 h10 (by simp; omega)]
  simp

theorem mem_splitComma : ∀ (a : GoString) (c : Nat), c ∈ a →
    c = 44 ∨ ∃ p ∈ splitComma a, c ∈ p := by
  intro a
  induction a with
  | nil => intro c h; simp at h
  | cons x xs ih =>
    intro c h
    rw [splitComma]
    by_cases hx : x = 44
    · rcases List.mem_cons.mp h with rfl | h
      · exact Or.inl hx
      · rcases ih c h with h | ⟨p, hp, hc⟩
        · exact Or.inl h
        · exact Or.inr ⟨p, by simp [hx, hp], hc⟩
    · simp only [hx, if_false]
      rcases hs : splitComma xs with _ | ⟨q, qs⟩
      · exact absurd hs (splitComma_ne_nil xs)
      · rcases List.mem_cons.mp h with rfl | h
        · exact Or.inr ⟨c :: q, by simp, by simp⟩
        · rcases ih c h with h | ⟨p, hp, hc⟩
          · exact Or.inl h
          · rw [hs] at hp
            rcases List.mem_cons.mp hp with rfl | hp
            · exact Or.inr ⟨x :: p, by simp, by simp [hc]⟩
            · exact Or.inr ⟨p, by simp [hp], hc⟩

/-- A comma-separated list of valid tokens is not empty and has no double quote,
carriage return or line feed. -/
theorem plain_of_valid (a : GoString) (h : ∀ p ∈ splitComma a, validToken p) :
    a ≠ [] ∧ plain a := by
  have hno : ∀ c, c ≠ 44 → ¬ (48 ≤ c ∧ c ≤ 57) → c ∉ a := by
    intro c h44 hd hc
    rcases mem_splitComma a c hc with h1 | ⟨p, hp, hcp⟩
    · exact h44 h1
    · exact hd ((h p hp).2.1 c hcp)
  refine ⟨?_, hno 34 (by omega) (by omega), hno 13 (by omega) (by omega),
    hno 10 (by omega) (by omega)⟩
  rintro rfl
  exact (h [] (by simp [splitComma])).1 rfl

/-- Claim C15: for every comma-separated list `a` of decimal integers in 0..255 and
every string `b`, `Set` of `a`, a line feed and `b` returns what `Set a` returns: it
succeeds and contributes exactly the codes of `a`; what follows the first line break
is neither parsed nor able to make the call fail. -/
theorem Set_reads_first_record_only (s : optionCodeSliceValue) (a b : GoString)
    (h : ∀ p ∈ splitComma a, validToken p) :
    s.Set (a ++ 10 :: b) = s.Set a ∧
    (s.Set (a ++ 10 :: b)).2 = none ∧
    (s.Set (a ++ 10 :: b)).1.value =
      (if s.changed then s.value else []) ++ (splitComma a).map decimalValue := by
  obtain ⟨hne, hp⟩ := plain_of_valid a h
  have h1 := readAsCSV_line_feed a b hne hp
  have h2 := readAsCSV_plain a hne hp
  have hloop := Set.loop_valid (splitComma a) [] h
  have hset : s.Set (a ++ 10 :: b) =
      (⟨if s.changed then s.value ++ (splitComma a).map decimalValue
        else (splitComma a).map decimalValue, true⟩, none) := by
    rw [Set_of_ok s _ (by rw [h1]) (by rw [h1, hloop]), h1, hloop]
    simp
  refine ⟨?_, ?_, ?_⟩
  · rw [hset, Set_of_ok s _ (by rw [h2]) (by rw [h2, hloop]), h2, hloop]
    simp
  · rw [hset]
  · rw [hset]
    cases s.changed <;> simp

/-- Witness of C15: on a fresh value `Set` of `1,2`, a line feed and `abc` succeeds
with `[1,2]`. -/
theorem Set_reads_first_record_only_witness :
    (∀ p ∈ splitComma (bytes "1,2"), validToken p) ∧
    NewOptionCodeSliceValue.Set (bytes "1,2\nabc") = NewOptionCodeSliceValue.Set (bytes "1,2") ∧
    (NewOptionCodeSliceValue.Set (bytes "1,2\nabc")).2 = none ∧
    (NewOptionCodeSliceValue.Set (bytes "1,2\nabc")).1.value = [1, 2] :=
  have h := Set_reads_first_record_only NewOptionCodeSliceValue (bytes "1,2") (bytes "abc")
    (by decide)
  ⟨by decide, h.1, h.2.1, h.2.2⟩
/-! ## Lemmas: a record read without error has a field -/

theorem parse_fields_ne_nil : ∀ fuel : Nat,
    (∀ (line : GoString) (errRead : Option ReadErr) (rest : GoString) (fields : List GoString),
      (parseField fuel line errRead rest fields).err = none →
      (parseField fuel line errRead rest fields).errRead = none →
      (parseField fuel line errRead rest fields).fields ≠ []) ∧
    (∀ (line : GoString) (errRead : Option ReadErr) (rest : GoString) (fields : List GoString)
      (cur : GoString),
      (parseQuoted fuel line errRead rest fields cur).err = none →
      (parseQuoted fuel line errRead rest fields cur).errRead = none →
      (parseQuoted fuel line errRead rest fields cur).fields ≠ []) := by
  intro fuel
  induction fuel with
  | zero =>
    constructor
    · intro line errRead rest fields h; simp [parseField] at h
    · intro line errRead rest fields cur h; simp [parseQuoted] at h
  | succ fuel ih =>
    obtain ⟨ihF, ihQ⟩ := ih
    constructor
    · intro line errRead rest fields
      by_cases hq : line.length = 0 ∨ line.head? ≠ some 34
      · have hq2 : line.head? ≠ some 34 := by
          rcases hq with h | h
          · rw [List.length_eq_zero] at h; subst h; simp
          · exact h
        cases hi : indexByte line 44 with
        | none =>
          cases hb : indexByte (line.take (line.length - lengthNL line)) 34 with
          | none => rw [parseField_last _ _ _ _ _ hq2 hi hb]; intro _ _; simp
          | some j => rw [parseField_last_bare _ _ _ _ _ j hq2 hi hb]; intro h; simp at h
        | some i =>
          cases hb : indexByte (line.take i) 34 with
          | none => rw [parseField_comma _ _ _ _ _ i hq2 hi hb]; exact ihF _ _ _ _
          | some j => rw [parseField_comma_bare _ _ _ _ _ i j hq2 hi hb]; intro h; simp at h
      · obtain ⟨t, rfl⟩ := exists_tail_of_quoted hq
        rw [parseField_quoted]
        exact ihQ _ _ _ _ _
    · intro line errRead rest fields cur
      cases hi : indexByte line 34 with
      | some i =>
        by_cases h34 : (line.drop (i + 1)).head? = some 34
        · rw [parseQuoted_doubled _ _ _ _ _ _ i hi h34]; exact ihQ _ _ _ _ _
        · by_cases h44 : (line.drop (i + 1)).head? = some 44
          · rw [parseQuoted_comma _ _ _ _ _ _ i hi h44]; exact ihF _ _ _ _
          · by_cases hn : lengthNL (line.drop (i + 1)) = (line.drop (i + 1)).length
            · rw [parseQuoted_eol _ _ _ _ _ _ i hi h34 h44 hn]; intro _ _; simp
            · rw [parseQuoted_stray _ _ _ _ _ _ i hi h34 h44 hn]; intro h; simp at h
      | none =>
        by_cases hne : line = []
        · subst hne
          by_cases hen : errRead = none
          · subst hen; rw [parseQuoted_abrupt]; intro h; simp at h
          · rw [parseQuoted_abrupt_err _ _ _ _ _ hen]; intro _ _; simp
        · by_cases hen : errRead = none
          · subst hen
            rw [parseQuoted_nextLine _ _ _ _ _ hi hne]
            exact ihQ _ _ _ _ _
          · rw [parseQuoted_readFailed _ _ _ _ _ _ hi hne hen]
            intro _ h
            exact absurd h hen

/-- A record that `Read` returns without error has at least one field. -/
theorem Reader.Read_fields_ne_nil (input : GoString) (h : (Reader.Read input).2 = none) :
    (Reader.Read input).1 ≠ [] := by
  unfold Reader.Read readRecord at h ⊢
  dsimp only at h ⊢
  by_cases ha : (skipEmptyLines (input.length + 1) input).2.1 = some .EOF
  · rw [if_pos ha] at h; rw [ha] at h; simp at h
  · rw [if_neg ha] at h ⊢
    by_cases hb : (skipEmptyLines (input.length + 1) input).2.1 = some .fuelExhausted
    · rw [if_pos hb] at h; rw [hb] at h; simp at h
    · rw [if_neg hb] at h ⊢
      dsimp only at h ⊢
      by_cases hc : (parseField (input.length + 1) (skipEmptyLines (input.length + 1) input).1
          (skipEmptyLines (input.length + 1) input).2.1
          (skipEmptyLines (input.length + 1) input).2.2 []).err = none
      · rw [if_pos hc] at h
        exact (parse_fields_ne_nil _).1 _ _ _ _ hc h
      · rw [if_neg hc] at h
        exact absurd h hc

theorem Set.loop_length (vs : List GoString) (h : (Set.loop vs []).2 = none) :
    (Set.loop vs []).1.length = vs.length := by
  rw [Set.loop_valid vs [] ((Set.loop_err_eq_none_iff vs []).mp h)]
  simp

/-- What `Set` does on the empty string. -/
theorem Set_nil (s : optionCodeSliceValue) :
    s.Set [] = (⟨if s.changed then s.value else [], true⟩, none) := by
  rw [Set_of_ok s [] (by decide) (by decide)]
  have : (Set.loop (readAsCSV []).1 []).1 = [] := by decide
  rw [this]
  simp

/-! ## Lemmas: blank lines -/

theorem readLine_blank_lf (rest : GoString) : readLine (10 :: rest) = ([10], none, rest) := by
  simp [readLine, readSlice]

theorem readLine_blank_crlf (rest : GoString) :
    readLine (13 :: 10 :: rest) = ([10], none, rest) := by
  simp [readLine, readSlice]

theorem skipEmptyLines_blank : ∀ (fuel : Nat) (raw : GoString), blankLines raw = true →
    raw.length < fuel → skipEmptyLines fuel raw = ([], some .EOF, []) := by
  intro fuel
  induction fuel with
  | zero => intro raw _ h; omega
  | succ fuel ih =>
    intro raw hb hlen
    have hskip : ∀ rest : GoString, readLine raw = ([10], none, rest) → blankLines rest = true →
        rest.length < fuel → skipEmptyLines (fuel + 1) raw = ([], some .EOF, []) := by
      intro rest hr hbr hl
      rw [skipEmptyLines, hr]
      have : ([10] : GoString).length = lengthNL [10] := by decide
      simp only [this, and_self, if_true]
      exact ih rest hbr hl
    match raw, hb, hlen with
    | [], _, _ => rw [skipEmptyLines, readLine_nil]; simp
    | [c], hb, hlen =>
      simp only [blankLines, decide_eq_true_eq] at hb
      subst hb
      exact hskip [] (readLine_blank_lf []) rfl (by simp at hlen ⊢; omega)
    | c :: d :: r, hb, hlen =>
      simp only [List.length_cons] at hlen
      by_cases hc : c = 10
      · subst hc
        simp only [blankLines, if_true] at hb
        exact hskip (d :: r) (readLine_blank_lf _) hb (by simp; omega)
      · simp only [blankLines, hc, if_false, Bool.and_eq_true, decide_eq_true_eq] at hb
        obtain ⟨⟨rfl, rfl⟩, hbr⟩ := hb
        exact hskip r (readLine_blank_crlf _) hbr (by omega)

/-- Claim C16: in every reachable state a successful `Set` of a raw string other than
the empty string makes the sequence longer by at least one element, so that a
successful `Set` leaves the sequence as it was exactly when the raw string is empty;
and a non-empty raw string made of blank lines only, such as a single line feed, makes
`Set` return the error `io.EOF` instead of being read as an empty list. -/
theorem Set_only_empty_string_is_empty_list :
    (∀ (s : optionCodeSliceValue) (raw : GoString), Reachable s → raw ≠ [] →
      (s.Set raw).2 = none → s.value.length + 1 ≤ (s.Set raw).1.value.length) ∧
    (∀ (s : optionCodeSliceValue) (raw : GoString), Reachable s → (s.Set raw).2 = none →
      ((s.Set raw).1.value = s.value ↔ raw = [])) ∧
    (∀ (s : optionCodeSliceValue) (raw : GoString), raw ≠ [] → blankLines raw = true →
      s.Set raw = (s, some (.csv .EOF))) ∧
    (∀ s : optionCodeSliceValue, s.Set (bytes "\n") = (s, some (.csv .EOF))) := by
  have grow : ∀ (s : optionCodeSliceValue) (raw : GoString), Reachable s → raw ≠ [] →
      (s.Set raw).2 = none → s.value.length + 1 ≤ (s.Set raw).1.value.length := by
    intro s raw hs hne hok
    obtain ⟨h1, h2⟩ := (Set_err_eq_none_iff s raw).mp hok
    have hfields : (readAsCSV raw).1 ≠ [] := by
      unfold readAsCSV at h1 ⊢
      rw [if_neg hne] at h1 ⊢
      exact Reader.Read_fields_ne_nil raw h1
    have hlen := Set.loop_length _ h2
    have hpos := List.length_pos.mpr hfields
    rw [Set_of_ok s raw h1 h2]
    cases hc : s.changed
    · simp [hs.value_eq_nil hc]; omega
    · simp; omega
  have blank : ∀ (s : optionCodeSliceValue) (raw : GoString), raw ≠ [] →
      blankLines raw = true → s.Set raw = (s, some (.csv .EOF)) := by
    intro s raw hne hb
    apply Set_of_csv_err
    unfold readAsCSV Reader.Read readRecord
    rw [if_neg hne, skipEmptyLines_blank _ raw hb (Nat.lt_succ_self _)]
    simp
  refine ⟨grow, fun s raw hs hok => ⟨fun heq => ?_, fun hnil => ?_⟩, blank,
    fun s => blank s _ (by decide) (by decide)⟩
  · by_contra hne
    have := grow s raw hs hne hok
    rw [heq] at this
    omega
  · subst hnil
    rw [Set_nil]
    cases hc : s.changed
    · simp [hs.value_eq_nil hc]
    · simp

/-- Witness of C16 in the reachable state after `Set "1,2"`: the successful `Set "3"`
makes the sequence longer, and `Set` of two blank lines fails with `io.EOF`. -/
theorem Set_only_empty_string_is_empty_list_witness :
    (Reachable (NewOptionCodeSliceValue.Set (bytes "1,2")).1 ∧ bytes "3" ≠ [] ∧
      ((NewOptionCodeSliceValue.Set (bytes "1,2")).1.Set (bytes "3")).2 = none) ∧
    (NewOptionCodeSliceValue.Set (bytes "1,2")).1.value.length + 1 ≤
      ((NewOptionCodeSliceValue.Set (bytes "1,2")).1.Set (bytes "3")).1.value.length ∧
    (NewOptionCodeSliceValue.Set (bytes "1,2")).1.Set (bytes "\n\r\n") =
      ((NewOptionCodeSliceValue.Set (bytes "1,2")).1, some (.csv .EOF)) :=
  ⟨⟨Reachable.set _ _ Reachable.new, by decide, by decide⟩,
   Set_only_empty_string_is_empty_list.1 _ (bytes "3") (Reachable.set _ _ Reachable.new)
     (by decide) (by decide),
   Set_only_empty_string_is_empty_list.2.2.1 _ (bytes "\n\r\n") (by decide) (by decide)⟩
/-! ## Lemmas: the first field of a record -/

theorem parse_fields_extend : ∀ fuel : Nat,
    (∀ (line : GoString) (errRead : Option ReadErr) (rest : GoString) (fields : List GoString),
      ∃ more, (parseField fuel line errRead rest fields).fields = fields ++ more) ∧
    (∀ (line : GoString) (errRead : Option ReadErr) (rest : GoString) (fields : List GoString)
      (cur : GoString),
      ∃ more, (parseQuoted fuel line errRead rest fields cur).fields = fields ++ more) := by
  intro fuel
  induction fuel with
  | zero =>
    constructor
    · intro line errRead rest fields; exact ⟨[], by simp [parseField]⟩
    · intro line errRead rest fields cur; exact ⟨[], by simp [parseQuoted]⟩
  | succ fuel ih =>
    obtain ⟨ihF, ihQ⟩ := ih
    constructor
    · intro line errRead rest fields
      by_cases hq : line.length = 0 ∨ line.head? ≠ some 34
      · have hq2 : line.head? ≠ some 34 := by
          rcases hq with h | h
          · rw [List.length_eq_zero] at h; subst h; simp
          · exact h
        cases hi : indexByte line 44 with
        | none =>
          cases hb : indexByte (line.take (line.length - lengthNL line)) 34 with
          | none => rw [parseField_last _ _ _ _ _ hq2 hi hb]; exact ⟨_, rfl⟩
          | some j => rw [parseField_last_bare _ _ _ _ _ j hq2 hi hb]; exact ⟨[], by simp⟩
        | some i =>
          cases hb : indexByte (line.take i) 34 with
          | none =>
            rw [parseField_comma _ _ _ _ _ i hq2 hi hb]
            obtain ⟨more, hm⟩ := ihF (line.drop (i + 1)) errRead rest (fields ++ [line.take i])
            exact ⟨[line.take i] ++ more, by rw [hm]; simp⟩
          | some j => rw [parseField_comma_bare _ _ _ _ _ i j hq2 hi hb]; exact ⟨[], by simp⟩
      · obtain ⟨t, rfl⟩ := exists_tail_of_quoted hq
        rw [parseField_quoted]
        exact ihQ _ _ _ _ _
    · intro line errRead rest fields cur
      cases hi : indexByte line 34 with
      | some i =>
        by_cases h34 : (line.drop (i + 1)).head? = some 34
        · rw [parseQuoted_doubled _ _ _ _ _ _ i hi h34]; exact ihQ _ _ _ _ _
        · by_cases h44 : (line.drop (i + 1)).head? = some 44
          · rw [parseQuoted_comma _ _ _ _ _ _ i hi h44]
            obtain ⟨more, hm⟩ := ihF ((line.drop (i + 1)).drop 1) errRead rest
              (fields ++ [cur ++ line.take i])
            exact ⟨[cur ++ line.take i] ++ more, by rw [hm]; simp⟩
          · by_cases hn : lengthNL (line.drop (i + 1)) = (line.drop (i + 1)).length
            · rw [parseQuoted_eol _ _ _ _ _ _ i hi h34 h44 hn]; exact ⟨_, rfl⟩
            · rw [parseQuoted_stray _ _ _ _ _ _ i hi h34 h44 hn]; exact ⟨[], by simp⟩
      | none =>
        by_cases hne : line = []
        · subst hne
          by_cases hen : errRead = none
          · subst hen; rw [parseQuoted_abrupt]; exact ⟨[], by simp⟩
          · rw [parseQuoted_abrupt_err _ _ _ _ _ hen]; exact ⟨_, rfl⟩
        · by_cases hen : errRead = none
          · subst hen
            rw [parseQuoted_nextLine _ _ _ _ _ hi hne]
            exact ihQ _ _ _ _ _
          · rw [parseQuoted_readFailed _ _ _ _ _ _ hi hne hen]; exact ⟨[], by simp⟩

/-- When a line starts with a byte that is no double quote, comma or line feed and
the field loop ends without error, that byte starts the first field. -/
theorem parseField_first_field (fuel : Nat) (c : Nat) (l : GoString) (e : Option ReadErr)
    (rest : GoString) (h34 : c ≠ 34) (h44 : c ≠ 44) (h10 : c ≠ 10)
    (herr : (parseField fuel (c :: l) e rest []).err = none) :
    ∃ f fs, (parseField fuel (c :: l) e rest []).fields = (c :: f) :: fs := by
  cases fuel with
  | zero => simp [parseField] at herr
  | succ fuel =>
    have hq : (c :: l).head? ≠ some 34 := by simp [h34]
    cases hi : indexByte (c :: l) 44 with
    | none =>
      have htake : ∃ f, (c :: l).take ((c :: l).length - lengthNL (c :: l)) = c :: f := by
        have hle := lengthNL_le_one (c :: l)
        cases l with
        | nil =>
          have : lengthNL [c] = 0 := by simp [lengthNL, h10]
          rw [this]
          exact ⟨[], rfl⟩
        | cons d r =>
          obtain ⟨k, hk⟩ : ∃ k, (c :: d :: r).length - lengthNL (c :: d :: r) = k + 1 :=
            ⟨(c :: d :: r).length - lengthNL (c :: d :: r) - 1, by simp at hle ⊢; omega⟩
          rw [hk]
          exact ⟨_, rfl⟩
      obtain ⟨f, hf⟩ := htake
      cases hb : indexByte ((c :: l).take ((c :: l).length - lengthNL (c :: l))) 34 with
      | none =>
        rw [parseField_last _ _ _ _ _ hq hi hb, hf]
        exact ⟨f, [], rfl⟩
      | some j =>
        rw [parseField_last_bare _ _ _ _ _ j hq hi hb] at herr
        simp at herr
    | some i =>
      obtain ⟨j, hj⟩ : ∃ j, i = j + 1 := by
        cases i with
        | zero => simp [indexByte, h44] at hi
        | succ j => exact ⟨j, rfl⟩
      subst hj
      cases hb : indexByte ((c :: l).take (j + 1)) 34 with
      | none =>
        rw [parseField_comma _ _ _ _ _ (j + 1) hq hi hb] at herr ⊢
        obtain ⟨more, hm⟩ := (parse_fields_extend fuel).1 ((c :: l).drop (j + 1 + 1)) e rest
          ([] ++ [(c :: l).take (j + 1)])
        rw [hm]
        exact ⟨l.take j, more, rfl⟩
      | some k =>
        rw [parseField_comma_bare _ _ _ _ _ (j + 1) k hq hi hb] at herr
        simp at herr

/-- A record read without error from an input that starts with `[` (91) has a first
field that starts with `[`. -/
theorem Reader.Read_bracket (body : GoString) (h : (Reader.Read (91 :: body)).2 = none) :
    ∃ f fs, (Reader.Read (91 :: body)).1 = (91 :: f) :: fs := by
  have hline := readLine_cons 91 body (by decide) (by decide)
  have hne := length_ne_lengthNL [] 91 (readLine body).1 (by decide)
  simp only [List.nil_append] at hne
  unfold Reader.Read at h ⊢
  rw [readRecord_of_line _ _ _ _ hline hne] at h ⊢
  dsimp only at h ⊢
  have herr : (parseField ((91 :: body).length + 1) (91 :: (readLine body).1) none
      (readLine body).2.2 []).err = none := by
    by_contra hc
    rw [if_neg hc] at h
    exact hc h
  exact parseField_first_field _ 91 _ _ _ (by decide) (by decide) (by decide) herr

theorem String_head (table : Nat → Option GoString) (v : optionCodeSliceValue) :
    ∃ body, v.String table = 91 :: body := by
  unfold optionCodeSliceValue.String
  have : bytes "[" = [91] := by decide
  rw [this]
  exact ⟨_, rfl⟩

/-- Claim C17: for every accumulated sequence and every name table, `Set` called on any
value with the text that `String` produces returns an error and leaves that value as it
was: the text starts with `[`, so either the CSV reader rejects it or the first token,
which starts with `[`, is rejected by `ParseUint`; the text of the empty sequence, `[]`,
is rejected as the token `[]`. -/
theorem Set_rejects_rendered_text (table : Nat → Option GoString)
    (v s : optionCodeSliceValue) :
    (∃ e : GoError, s.Set (v.String table) = (s, some e) ∧
      ((∃ ce, e = .csv ce ∧ ce ≠ .fuelExhausted) ∨
        ∃ ne : NumError, e = .num ne ∧ ne.Num.head? = some 91)) ∧
    (∀ b : Bool, s.Set (optionCodeSliceValue.String table ⟨[], b⟩) =
      (s, some (.num (syntaxError fnParseUint (bytes "[]"))))) := by
  constructor
  · obtain ⟨body, hbody⟩ := String_head table v
    rw [hbody]
    have hcsv : readAsCSV (91 :: body) = Reader.Read (91 :: body) := by
      unfold readAsCSV; rw [if_neg (by simp)]
    cases h1 : (Reader.Read (91 :: body)).2 with
    | some ce =>
      refine ⟨.csv ce, Set_of_csv_err s _ ce (by rw [hcsv]; exact h1), Or.inl ⟨ce, rfl, ?_⟩⟩
      rintro rfl
      exact Reader.Read_fuel_adequate _ h1
    | none =>
      obtain ⟨f, fs, hf⟩ := Reader.Read_bracket body h1
      have hbad : ¬ validToken (91 :: f) := by
        intro hv
        have := hv.2.1 91 (by simp)
        simp [isDigit] at this
      have herr : (ParseUint (91 :: f)).2 ≠ none :=
        fun h => hbad ((ParseUint_err_eq_none_iff _).mp h)
      obtain ⟨ne, hne⟩ := Option.ne_none_iff_exists'.mp herr
      refine ⟨.num ne, ?_, Or.inr ⟨ne, rfl, ?_⟩⟩
      · apply Set_of_loop_err s _ _ (by rw [hcsv]; exact h1)
        rw [hcsv, hf]
        exact Set.loop_first_invalid (91 :: f) fs ne hne [] [] (by simp)
      · rw [(ParseUint_err_Num _ ne hne).1]
        rfl
  · intro b
    have : optionCodeSliceValue.String table ⟨[], b⟩ = bytes "[]" := by
      unfold optionCodeSliceValue.String
      simp only [List.length_nil, List.replicate_zero, String.loop, Join]
      decide
    rw [this]
    exact Set_of_loop_err s _ _ (by decide) (by decide)

/-- Witness of C17 with the table that names only the code 1: the text
`[A,Unknown(255)]` of the sequence `[1,255]` is rejected on a fresh value, the error
naming the token `[A`. -/
theorem Set_rejects_rendered_text_witness :
    (∃ e : GoError,
      NewOptionCodeSliceValue.Set (optionCodeSliceValue.String tableA ⟨[1, 255], true⟩) =
        (NewOptionCodeSliceValue, some e) ∧
      ((∃ ce, e = .csv ce ∧ ce ≠ .fuelExhausted) ∨
        ∃ ne : NumError, e = .num ne ∧ ne.Num.head? = some 91)) ∧
    NewOptionCodeSliceValue.Set (optionCodeSliceValue.String tableA ⟨[1, 255], true⟩) =
      (NewOptionCodeSliceValue, some (.num (syntaxError fnParseUint (bytes "[A")))) :=
  ⟨(Set_rejects_rendered_text tableA ⟨[1, 255], true⟩ NewOptionCodeSliceValue).1, by decide⟩
/-! ## Lemmas: the line read behind a prefix -/

theorem normalize_append (x : GoString) (q : Nat) (m : GoString) (h10 : q ≠ 10)
    (h13 : q ≠ 13) :
    (if (x ++ q :: m).length ≥ 2 ∧ (x ++ q :: m).get? ((x ++ q :: m).length - 2) = some 13 ∧
          (x ++ q :: m).get? ((x ++ q :: m).length - 1) = some 10
        then (x ++ q :: m).take ((x ++ q :: m).length - 2) ++ [10] else x ++ q :: m) =
      x ++ q :: (if m.length ≥ 2 ∧ m.get? (m.length - 2) = some 13 ∧
          m.get? (m.length - 1) = some 10
        then m.take (m.length - 2) ++ [10] else m) := by
  rcases list_end_cases m with rfl | ⟨z, rfl⟩ | ⟨p, u, v, rfl⟩
  · have h : (x ++ [q]).get? ((x ++ [q]).length - 1) = some q := by simp
    rw [if_neg (by rw [h]; simp [h10]), if_neg (by simp)]
  · have hx : x ++ [q, z] = x ++ q :: [z] := rfl
    rw [if_neg (by rw [← hx, (get_two_before_end x q z).1]; simp [h13]), if_neg (by simp)]
  · have hx : x ++ q :: (p ++ [u, v]) = (x ++ q :: p) ++ [u, v] := by simp
    obtain ⟨a1, a2, a3⟩ := get_two_before_end (x ++ q :: p) u v
    obtain ⟨b1, b2, b3⟩ := get_two_before_end p u v
    rw [hx, a1, a2, a3, b1, b2, b3]
    have hl1 : ((x ++ q :: p) ++ [u, v]).length ≥ 2 := by simp; omega
    have hl2 : (p ++ [u, v]).length ≥ 2 := by simp
    by_cases hc : u = 13 ∧ v = 10
    · rw [if_pos ⟨hl1, by rw [hc.1], by rw [hc.2]⟩, if_pos ⟨hl2, by rw [hc.1], by rw [hc.2]⟩]
      simp
    · rw [if_neg, if_neg]
      · simp
      · intro h; exact hc ⟨by simpa using h.2.1, by simpa using h.2.2⟩
      · intro h; exact hc ⟨by simpa using h.2.1, by simpa using h.2.2⟩

theorem dropCR_append (x : GoString) (q : Nat) (l : GoString) (h13 : q ≠ 13) :
    (if (x ++ q :: l).getLast? = some 13 then (x ++ q :: l).dropLast else x ++ q :: l) =
      x ++ q :: (if l.getLast? = some 13 then l.dropLast else l) := by
  rcases List.eq_nil_or_concat l with rfl | ⟨p, z, rfl⟩
  · rw [if_neg (by simp [h13]), if_neg (by simp)]
  · rw [List.concat_eq_append]
    have hx : x ++ q :: (p ++ [z]) = (x ++ q :: p) ++ [z] := by simp
    rw [hx]
    have g1 : ((x ++ q :: p) ++ [z]).getLast? = some z := List.getLast?_concat _
    have g2 : (p ++ [z]).getLast? = some z := List.getLast?_concat _
    rw [g1, g2]
    by_cases hz : z = 13
    · rw [if_pos (by rw [hz]), if_pos (by rw [hz]), List.dropLast_concat,
        List.dropLast_concat]
    · rw [if_neg (by simpa using hz), if_neg (by simpa using hz)]
      simp

theorem dropStage_append (x : GoString) (q : Nat) (l : GoString) (e : Option ReadErr)
    (h13 : q ≠ 13) (he : e = none ∨ e = some ReadErr.EOF) :
    (if (x ++ q :: l).length > 0 ∧ e = some ReadErr.EOF
        then ((if (x ++ q :: l).getLast? = some 13 then (x ++ q :: l).dropLast
            else x ++ q :: l), (none : Option ReadErr))
        else (x ++ q :: l, e)) =
      (x ++ q :: (if l.length > 0 ∧ e = some ReadErr.EOF
        then ((if l.getLast? = some 13 then l.dropLast else l), (none : Option ReadErr))
        else (l, e)).1, none) := by
  rcases he with rfl | rfl
  · simp
  · have hpos : (x ++ q :: l).length > 0 := by simp
    simp only [hpos, and_self, if_true, and_true]
    rw [dropCR_append x q l h13]
    cases l with
    | nil => simp
    | cons a l2 => simp

/-- Bytes without line feed that end in a byte other than carriage return and line
feed stay in front of the line that `readLine` returns, and what follows them is read
as if it stood alone. -/
theorem readLine_append (x : GoString) (q : Nat) (y : GoString) (hx : 10 ∉ x)
    (h10 : q ≠ 10) (h13 : q ≠ 13) :
    readLine (x ++ q :: y) = (x ++ q :: (readLine y).1, none, (readLine y).2.2) := by
  have herr := readSlice_err y
  have hslice := readSlice_append x q y hx h10
  have hdrop := dropStage_append x q (readSlice y).1 (readSlice y).2.1 h13 herr
  unfold readLine
  simp only [hslice]
  rw [hdrop]
  simp only
  rw [normalize_append x q _ h10 h13]

/-- A first line without double quote that ends in a line feed is read as a non-empty
line without double quote, and the reader is left with what follows the line feed. -/
theorem readLine_first_line (a k : GoString) (h10 : 10 ∉ a) (h34 : 34 ∉ a) :
    (readLine (a ++ 10 :: k)).2.1 = none ∧ (readLine (a ++ 10 :: k)).2.2 = k ∧
    (readLine (a ++ 10 :: k)).1 ≠ [] ∧ 34 ∉ (readLine (a ++ 10 :: k)).1 := by
  have hslice := readSlice_line_feed a k h10
  have hc1 : ¬ ((a ++ [10]).length > 0 ∧ (none : Option ReadErr) = some ReadErr.EOF) := by
    simp
  have heq : readLine (a ++ 10 :: k) =
      ((if (a ++ [10]).length ≥ 2 ∧ (a ++ [10]).get? ((a ++ [10]).length - 2) = some 13 ∧
          (a ++ [10]).get? ((a ++ [10]).length - 1) = some 10
        then (a ++ [10]).take ((a ++ [10]).length - 2) ++ [10] else a ++ [10]), none, k) := by
    unfold readLine
    simp only [hslice]
    rw [if_neg hc1]
  rw [heq]
  refine ⟨rfl, rfl, ?_, ?_⟩
  · split_ifs <;> simp
  · intro h
    have := mem_of_mem_normalize _ _ h
    simp at this
    exact h34 this
/-! ## Lemmas: the shape of a record with a bare quote -/

theorem reachesBareQuote_inUnquoted : ∀ (i : GoString),
    reachesBareQuote .inUnquoted i = true →
    ∃ x y, 34 ∉ x ∧ 44 ∉ x ∧ 10 ∉ x ∧
      ((i = x ++ 44 :: y ∧ reachesBareQuote .fieldStart y = true) ∨ i = x ++ 34 :: y) := by
  intro i
  induction i with
  | nil => intro h; simp [reachesBareQuote] at h
  | cons c r ih =>
    intro h
    rw [reachesBareQuote] at h
    by_cases h34 : c = 34
    · exact ⟨[], r, by simp, by simp, by simp, Or.inr (by rw [h34]; rfl)⟩
    · rw [if_neg h34] at h
      by_cases h44 : c = 44
      · rw [if_pos h44] at h
        exact ⟨[], r, by simp, by simp, by simp, Or.inl ⟨by rw [h44]; rfl, h⟩⟩
      · rw [if_neg h44] at h
        by_cases h10 : c = 10
        · rw [if_pos h10] at h; simp at h
        · rw [if_neg h10] at h
          obtain ⟨x, y, hx34, hx44, hx10, hxy⟩ := ih h
          refine ⟨c :: x, y, ?_, ?_, ?_, ?_⟩
          · simp [hx34]; exact fun e => h34 e.symm
          · simp [hx44]; exact fun e => h44 e.symm
          · simp [hx10]; exact fun e => h10 e.symm
          · rcases hxy with ⟨rfl, hy⟩ | rfl
            · exact Or.inl ⟨rfl, hy⟩
            · exact Or.inr rfl

/-- The three ways a record with a bare quote can start: with a quoted field, with a
clean unquoted field and a comma, or with the unquoted field that holds the quote. -/
theorem reachesBareQuote_fieldStart (i : GoString)
    (h : reachesBareQuote .fieldStart i = true) :
    (∃ j, i = 34 :: j ∧ reachesBareQuote .inQuoted j = true) ∨
    (∃ u y, 34 ∉ u ∧ 44 ∉ u ∧ 10 ∉ u ∧ i = u ++ 44 :: y ∧
      reachesBareQuote .fieldStart y = true) ∨
    (∃ x y, x ≠ [] ∧ 34 ∉ x ∧ 44 ∉ x ∧ 10 ∉ x ∧ i = x ++ 34 :: y) := by
  cases i with
  | nil => simp [reachesBareQuote] at h
  | cons c r =>
    rw [reachesBareQuote] at h
    by_cases h34 : c = 34
    · rw [if_pos h34] at h
      exact Or.inl ⟨r, by rw [h34], h⟩
    · rw [if_neg h34] at h
      by_cases h44 : c = 44
      · rw [if_pos h44] at h
        exact Or.inr (Or.inl ⟨[], r, by simp, by simp, by simp, by rw [h44]; rfl, h⟩)
      · rw [if_neg h44] at h
        by_cases h10 : c = 10
        · rw [if_pos h10] at h; simp at h
        · rw [if_neg h10] at h
          obtain ⟨x, y, hx34, hx44, hx10, hxy⟩ := reachesBareQuote_inUnquoted r h
          have m34 : 34 ∉ c :: x := by simp [hx34]; exact fun e => h34 e.symm
          have m44 : 44 ∉ c :: x := by simp [hx44]; exact fun e => h44 e.symm
          have m10 : 10 ∉ c :: x := by simp [hx10]; exact fun e => h10 e.symm
          rcases hxy with ⟨rfl, hy⟩ | rfl
          · exact Or.inr (Or.inl ⟨c :: x, y, m34, m44, m10, rfl, hy⟩)
          · exact Or.inr (Or.inr ⟨c :: x, y, by simp, m34, m44, m10, rfl⟩)

theorem reachesBareQuote_inQuoted_skip (a j : GoString) (ha : 34 ∉ a) :
    reachesBareQuote .inQuoted (a ++ j) = reachesBareQuote .inQuoted j := by
  induction a with
  | nil => rfl
  | cons c cs ih =>
    have hc : c ≠ 34 := fun e => ha (by simp [e])
    rw [List.cons_append, reachesBareQuote, if_neg hc]
    exact ih (fun e => ha (List.mem_cons_of_mem _ e))

/-- Inside a quoted field of a record with a bare quote, the next event is a line
feed, a doubled double quote, or the closing double quote with its comma. -/
theorem reachesBareQuote_inQuoted : ∀ (j : GoString),
    reachesBareQuote .inQuoted j = true →
    ∃ a k, 34 ∉ a ∧ 10 ∉ a ∧
      ((j = a ++ 10 :: k ∧ reachesBareQuote .inQuoted k = true) ∨
       (j = a ++ 34 :: 34 :: k ∧ reachesBareQuote .inQuoted k = true) ∨
       (j = a ++ 34 :: 44 :: k ∧ reachesBareQuote .fieldStart k = true)) := by
  intro j
  induction j with
  | nil => intro h; simp [reachesBareQuote] at h
  | cons c r ih =>
    intro h
    by_cases h34 : c = 34
    · rw [reachesBareQuote, if_pos h34] at h
      cases r with
      | nil => simp [reachesBareQuote] at h
      | cons d r2 =>
        rw [reachesBareQuote] at h
        by_cases hd34 : d = 34
        · rw [if_pos hd34] at h
          exact ⟨[], r2, by simp, by simp, Or.inr (Or.inl ⟨by rw [h34, hd34]; rfl, h⟩)⟩
        · rw [if_neg hd34] at h
          by_cases hd44 : d = 44
          · rw [if_pos hd44] at h
            exact ⟨[], r2, by simp, by simp, Or.inr (Or.inr ⟨by rw [h34, hd44]; rfl, h⟩)⟩
          · rw [if_neg hd44] at h; simp at h
    · rw [reachesBareQuote, if_neg h34] at h
      by_cases h10 : c = 10
      · exact ⟨[], r, by simp, by simp, Or.inl ⟨by rw [h10]; rfl, h⟩⟩
      · obtain ⟨a, k, ha34, ha10, hcases⟩ := ih h
        refine ⟨c :: a, k, ?_, ?_, ?_⟩
        · simp [ha34]; exact fun e => h34 e.symm
        · simp [ha10]; exact fun e => h10 e.symm
        · rcases hcases with ⟨rfl, hk⟩ | ⟨rfl, hk⟩ | ⟨rfl, hk⟩
          · exact Or.inl ⟨rfl, hk⟩
          · exact Or.inr (Or.inl ⟨rfl, hk⟩)
          · exact Or.inr (Or.inr ⟨rfl, hk⟩)
theorem drop_append_cons (a : GoString) (c : Nat) (t : GoString) :
    (a ++ c :: t).drop (a.length + 1) = t := by
  induction a with
  | nil => rfl
  | cons x xs ih => simp [ih]

theorem take_append_cons (a : GoString) (c : Nat) (t : GoString) :
    (a ++ c :: t).take a.length = a := by
  induction a with
  | nil => rfl
  | cons x xs ih => simp [ih]

/-- On a record with a bare quote inside an unquoted field, the field loops of
`readRecord` end in `csv.ErrBareQuote`, through any number of complete fields before it,
quoted fields that span several lines included. -/
theorem parse_reaches_bare : ∀ fuel : Nat,
    (∀ (i : GoString) (fields : List GoString),
      reachesBareQuote .fieldStart i = true → i.length < fuel →
      (parseField fuel (readLine i).1 none (readLine i).2.2 fields).err =
        some .ErrBareQuote) ∧
    (∀ (j : GoString) (fields : List GoString) (cur : GoString),
      reachesBareQuote .inQuoted j = true → j.length < fuel →
      (parseQuoted fuel (readLine j).1 none (readLine j).2.2 fields cur).err =
        some .ErrBareQuote) := by
  intro fuel
  induction fuel with
  | zero => constructor <;> intros <;> omega
  | succ fuel ih =>
    obtain ⟨ihF, ihQ⟩ := ih
    constructor
    · intro i fields h hlen
      rcases reachesBareQuote_fieldStart i h with
        ⟨j, rfl, hj⟩ | ⟨u, y, hu34, hu44, hu10, rfl, hy⟩ | ⟨x, y, hne, hx34, hx44, hx10, rfl⟩
      · rw [readLine_cons 34 j (by decide) (by decide), parseField_quoted]
        exact ihQ j fields [] hj (by simp at hlen; omega)
      · rw [readLine_append u 44 y hu10 (by decide) (by decide)]
        have hq : (u ++ 44 :: (readLine y).1).head? ≠ some 34 := by
          cases u with
          | nil => simp
          | cons c cs =>
            intro hh
            simp at hh
            exact hu34 (by simp [hh])
        have hi := indexByte_append_of_not_mem u (readLine y).1 44 hu44
        have hb : indexByte ((u ++ 44 :: (readLine y).1).take u.length) 34 = none := by
          rw [take_append_cons]
          exact (indexByte_eq_none_iff _ _).mpr hu34
        rw [parseField_comma _ _ _ _ _ u.length hq hi hb, drop_append_cons]
        exact ihF y _ hy (by simp at hlen; omega)
      · rw [readLine_append x 34 y hx10 (by decide) (by decide)]
        have hlast : x.getLast? ≠ some 44 := fun e => hx44 (mem_of_getLast_eq e)
        have htot := readLine_total_le y
        exact parseField_bare _ x _ none _ fields hne hx34 hx10 hlast
          (by simp at hlen ⊢; omega)
    · intro j fields cur h hlen
      obtain ⟨a, k, ha34, ha10, hcases⟩ := reachesBareQuote_inQuoted j h
      rcases hcases with ⟨rfl, hk⟩ | ⟨rfl, hk⟩ | ⟨rfl, hk⟩
      · obtain ⟨_, hrest, hne, hno⟩ := readLine_first_line a k ha10 ha34
        rw [parseQuoted_nextLine _ _ _ _ _ ((indexByte_eq_none_iff _ _).mpr hno) hne, hrest]
        exact ihQ k _ _ hk (by simp at hlen; omega)
      · rw [readLine_append a 34 (34 :: k) ha10 (by decide) (by decide),
          readLine_cons 34 k (by decide) (by decide)]
        have hi := indexByte_append_of_not_mem a (34 :: (readLine k).1) 34 ha34
        rw [parseQuoted_doubled _ _ _ _ _ _ a.length hi (by rw [drop_append_cons]; rfl),
          drop_append_cons]
        exact ihQ k _ _ hk (by simp at hlen; omega)
      · rw [readLine_append a 34 (44 :: k) ha10 (by decide) (by decide),
          readLine_cons 44 k (by decide) (by decide),
          parseQuoted_close_comma _ _ _ _ _ _ _ ha34]
        exact ihF k _ hk (by simp at hlen; omega)

/-! ## Lemmas: blank lines before the record -/

theorem skipEmptyLines_blank_append : ∀ (fuel : Nat) (b i line rest : GoString),
    blankLines b = true → readLine i = (line, none, rest) → line.length ≠ lengthNL line →
    b.length < fuel → skipEmptyLines fuel (b ++ i) = (line, none, rest) := by
  intro fuel
  induction fuel with
  | zero => intro b i line rest _ _ _ h; omega
  | succ fuel ih =>
    intro b i line rest hb hline hne hlen
    have hskip : ∀ b2 : GoString, readLine (b ++ i) = ([10], none, b2 ++ i) →
        blankLines b2 = true → b2.length < fuel →
        skipEmptyLines (fuel + 1) (b ++ i) = (line, none, rest) := by
      intro b2 hr hb2 hl
      rw [skipEmptyLines, hr]
      have : ([10] : GoString).length = lengthNL [10] := by decide
      simp only [this, and_self, if_true]
      exact ih b2 i line rest hb2 hline hne hl
    match b, hb, hlen with
    | [], _, _ => exact skipEmptyLines_of_line fuel i line rest hline hne
    | [c], hb, hlen =>
      simp only [blankLines, decide_eq_true_eq] at hb
      subst hb
      have hfuel : 0 < fuel := by simp at hlen; omega
      exact hskip [] (readLine_blank_lf _) rfl hfuel
    | c :: d :: r, hb, hlen =>
      simp only [List.length_cons] at hlen
      by_cases hc : c = 10
      · subst hc
        simp only [blankLines, if_true] at hb
        exact hskip (d :: r) (readLine_blank_lf _) hb (by simp; omega)
      · simp only [blankLines, hc, if_false, Bool.and_eq_true, decide_eq_true_eq] at hb
        obtain ⟨⟨rfl, rfl⟩, hbr⟩ := hb
        exact hskip r (readLine_blank_crlf _) hbr (by omega)

theorem readRecord_of_skip (fuel : Nat) (input line rest : GoString)
    (h : skipEmptyLines fuel input = (line, none, rest)) :
    readRecord fuel input =
      ((parseField fuel line none rest []).fields,
        if (parseField fuel line none rest []).err = none
          then (parseField fuel line none rest []).errRead
          else (parseField fuel line none rest []).err) := by
  unfold readRecord
  rw [h]
  simp
theorem readLine_of_reachesBareQuote (i : GoString)
    (h : reachesBareQuote .fieldStart i = true) :
    (readLine i).2.1 = none ∧ (readLine i).1.length ≠ lengthNL (readLine i).1 := by
  rcases reachesBareQuote_fieldStart i h with
    ⟨j, rfl, _⟩ | ⟨u, y, _, _, hu10, rfl, _⟩ | ⟨x, y, _, _, _, hx10, rfl⟩
  · rw [readLine_cons 34 j (by decide) (by decide)]
    exact ⟨rfl, length_ne_lengthNL [] 34 _ (by decide)⟩
  · rw [readLine_append u 44 y hu10 (by decide) (by decide)]
    exact ⟨rfl, length_ne_lengthNL u 44 _ (by decide)⟩
  · rw [readLine_append x 34 y hx10 (by decide) (by decide)]
    exact ⟨rfl, length_ne_lengthNL x 34 _ (by decide)⟩

/-- Claim C9, as amended: a raw string whose first field, after any blank lines, opens
with a double quote after which every double quote is doubled (nothing closes the
field; in particular no further double quote at all) makes `Set` return `csv.ErrQuote`;
a raw string whose first record, after any blank lines and any complete fields,
unquoted or quoted, has a double quote inside an unquoted field after at least one other
byte makes `Set` return `csv.ErrBareQuote`; both leave the sequence and the flag as they
were.  The quote has to stand in the first record: what follows the line feed that ends
the first record is not read. -/
theorem Set_rejects_malformed_quoting (s : optionCodeSliceValue) :
    (∀ b body : GoString, blankLines b = true → quotesPaired body = true →
      s.Set (b ++ 34 :: body) = (s, some (.csv .ErrQuote))) ∧
    (∀ body : GoString, quotesPaired body = true →
      s.Set (34 :: body) = (s, some (.csv .ErrQuote))) ∧
    (∀ body : GoString, 34 ∉ body → s.Set (34 :: body) = (s, some (.csv .ErrQuote))) ∧
    (∀ b i : GoString, blankLines b = true → reachesBareQuote .fieldStart i = true →
      s.Set (b ++ i) = (s, some (.csv .ErrBareQuote))) ∧
    (∀ x y : GoString, x ≠ [] → 34 ∉ x → 10 ∉ x → x.getLast? ≠ some 44 →
      s.Set (x ++ 34 :: y) = (s, some (.csv .ErrBareQuote))) ∧
    s.Set (bytes "\"1") = (s, some (.csv .ErrQuote)) ∧
    s.Set (bytes "\"1,2") = (s, some (.csv .ErrQuote)) ∧
    s.Set (bytes "1\"2") = (s, some (.csv .ErrBareQuote)) ∧
    s.Set (bytes "\"1\",2\"3") = (s, some (.csv .ErrBareQuote)) := by
  have hA : ∀ b body : GoString, blankLines b = true → quotesPaired body = true →
      s.Set (b ++ 34 :: body) = (s, some (.csv .ErrQuote)) := by
    intro b body hb hbody
    apply Set_of_csv_err
    have hline := readLine_cons 34 body (by decide) (by decide)
    have hne := length_ne_lengthNL [] 34 (readLine body).1 (by decide)
    simp only [List.nil_append] at hne
    obtain ⟨h1, h2⟩ := readLine_quotesPaired body hbody
    have hlen := readLine_total_le body
    have hskip := skipEmptyLines_blank_append ((b ++ 34 :: body).length + 1) b (34 :: body)
      _ _ hb hline hne (by simp; omega)
    unfold readAsCSV Reader.Read
    rw [if_neg (by simp), readRecord_of_skip _ _ _ _ hskip, parseField_quoted,
      parseQuoted_unclosed _ _ _ _ _ h1 h2 (by simp; omega)]
    simp
  have hA0 : ∀ body : GoString, quotesPaired body = true →
      s.Set (34 :: body) = (s, some (.csv .ErrQuote)) :=
    fun body h => hA [] body rfl h
  have hB : ∀ b i : GoString, blankLines b = true → reachesBareQuote .fieldStart i = true →
      s.Set (b ++ i) = (s, some (.csv .ErrBareQuote)) := by
    intro b i hb hi
    apply Set_of_csv_err
    obtain ⟨he, hne⟩ := readLine_of_reachesBareQuote i hi
    have hline : readLine i = ((readLine i).1, none, (readLine i).2.2) := by
      rw [← he]
    have hskip := skipEmptyLines_blank_append ((b ++ i).length + 1) b i _ _ hb hline hne
      (by simp; omega)
    have herr := (parse_reaches_bare ((b ++ i).length + 1)).1 i [] hi (by simp; omega)
    have hnil : b ++ i ≠ [] := by
      intro h
      have : i = [] := (List.append_eq_nil.mp h).2
      rw [this] at hi
      simp [reachesBareQuote] at hi
    unfold readAsCSV Reader.Read
    rw [if_neg hnil, readRecord_of_skip _ _ _ _ hskip, herr]
    simp
  have hC : ∀ x y : GoString, x ≠ [] → 34 ∉ x → 10 ∉ x → x.getLast? ≠ some 44 →
      s.Set (x ++ 34 :: y) = (s, some (.csv .ErrBareQuote)) := by
    intro x y hx h34 h10 hlast
    apply Set_of_csv_err
    obtain ⟨y2, rest, hline, _, _, hlen⟩ :=
      readLine_prefix x 34 y h10 (by decide) (by decide)
    have hne := length_ne_lengthNL x 34 y2 (by decide)
    have herr := parseField_bare ((x ++ 34 :: y).length + 1) x y2 none rest [] hx h34 h10 hlast
      (by simp; omega)
    unfold readAsCSV Reader.Read
    rw [if_neg (by simp), readRecord_of_line _ _ _ _ hline hne, herr]
    simp
  refine ⟨hA, hA0, fun body h => hA0 body (quotesPaired_of_not_mem body h), hB, hC,
    hA0 _ (by decide), hA0 _ (by decide), ?_, ?_⟩
  · exact hC (bytes "1") (bytes "2") (by decide) (by decide) (by decide) (by decide)
  · exact hB [] (bytes "\"1\",2\"3") rfl (by decide)

/-- Witness of C9 on a value that already holds `[1,2]`: after a blank line, an
unclosed quoted field that holds a doubled quote and spans a line break; and, after a
blank line and a quoted field that spans a line break, a bare quote in the second
field. -/
theorem Set_rejects_malformed_quoting_witness :
    ((blankLines (bytes "\n") = true ∧ quotesPaired (bytes "7\"\"\n8") = true) ∧
      optionCodeSliceValue.Set ⟨[1, 2], true⟩ (bytes "\n" ++ 34 :: bytes "7\"\"\n8") =
        (⟨[1, 2], true⟩, some (.csv .ErrQuote))) ∧
    ((blankLines (bytes "\r\n") = true ∧
        reachesBareQuote .fieldStart (bytes "\"a\nb\",2\"3") = true) ∧
      optionCodeSliceValue.Set ⟨[1, 2], true⟩ (bytes "\r\n" ++ bytes "\"a\nb\",2\"3") =
        (⟨[1, 2], true⟩, some (.csv .ErrBareQuote))) :=
  ⟨⟨⟨by decide, by decide⟩,
    (Set_rejects_malformed_quoting ⟨[1, 2], true⟩).1 (bytes "\n") (bytes "7\"\"\n8")
      (by decide) (by decide)⟩,
   ⟨⟨by decide, by decide⟩,
    (Set_rejects_malformed_quoting ⟨[1, 2], true⟩).2.2.2.1 (bytes "\r\n")
      (bytes "\"a\nb\",2\"3") (by decide) (by decide)⟩⟩

/-- Counterexample to claim C9 as stated: in `1`, line feed, `2"3` the second line has a
bare double quote inside an unquoted field, yet `Set` on a fresh value returns no error,
stores `[1]` and sets the flag, because only the first record is read. -/
theorem Set_accepts_bare_quote_after_first_record :
    reachesBareQuote .fieldStart (bytes "2\"3") = true ∧
    NewOptionCodeSliceValue.Set (bytes "1\n2\"3") = (⟨[1], true⟩, none) := by
  decide
end Fbender
